import Mathlib

/-!
Verification of the closure solver (`maximumWeightClosure`, `solveClosureBySize`)
of the discorg repository, a shallow embedding of the TypeScript source.

Modelling conventions:
* JS `number` values are modelled as exact rationals `ℚ`; the literal `1e-9`
  becomes `1 / 10^9`, and `Number.POSITIVE_INFINITY` (used only as the initial
  `pushed` argument of the blocking-flow DFS) is modelled as `Option ℚ` with
  `none` standing for +∞.
* `Record<ChunkId, Chunk>` is modelled as the insertion-ordered list of its
  values (JS objects preserve string-key insertion order and `Object.values`
  iterates in that order); a record inherently has pairwise-distinct keys,
  which is the `Graph.Wf` predicate below.
* The imperative loops of the source are modelled as structural recursion on an
  explicit fuel argument.  Every fuel is chosen large enough that it is never
  exhausted on the corresponding JS loop (the bound is justified at each
  definition), so the functions agree with the source.
-/

set_option maxRecDepth 4000

namespace Discorg

abbrev ChunkId := String

/-- A chunk, from `types.ts`.  Besides `id` and `weight` the source type has
only descriptive fields that the solver never reads (title, summary, tags,
timestamps, ...); they are represented by the single opaque field `title`. -/
structure Chunk where
  id : ChunkId
  weight : ℚ
  title : String
deriving DecidableEq, Repr

/-- A dependency edge, from `types.ts` (`from`/`to`; `from` is a Lean keyword,
hence `fromId`/`toId`).  `rationale` is an opaque descriptive field. -/
structure Edge where
  fromId : ChunkId
  toId : ChunkId
  rationale : Option String
deriving DecidableEq, Repr

/-- A graph: the insertion-ordered entries of the `Record<ChunkId, Chunk>`
plus the ordered edge list. -/
structure Graph where
  chunks : List Chunk
  edges : List Edge
deriving DecidableEq, Repr

/-- Well-formedness of the `Record`: its keys (= chunk ids) are pairwise
distinct.  This is inherent to a JS record and not checked by the source. -/
def Graph.Wf (g : Graph) : Prop := (g.chunks.map Chunk.id).Nodup

instance (g : Graph) : Decidable g.Wf := by unfold Graph.Wf; infer_instance

/-- `graph.chunks[id]?.weight ?? 0`. -/
def weightOf (g : Graph) (a : ChunkId) : ℚ :=
  ((g.chunks.find? (fun c => c.id = a)).map Chunk.weight).getD 0

/-- `id` is a key of `graph.chunks`. -/
def isKey (g : Graph) (a : ChunkId) : Prop := ∃ c ∈ g.chunks, c.id = a

instance (g : Graph) (a : ChunkId) : Decidable (isKey g a) := by
  unfold isKey; infer_instance

/-- The solver's result record.  `penalty` is an optional field of the source
type `ClosureSolution`, hence `Option ℚ` (`none` = field absent). -/
structure ClosureSolution where
  closure : List ChunkId
  totalWeight : ℚ
  size : ℕ
  penalty : Option ℚ
deriving DecidableEq, Repr

/-! ## The flow-network engine (class `Dinic`) -/

/-- `type DinicEdge = { to: number; rev: number; cap: number }`. -/
structure DinicEdge where
  «to» : ℕ
  rev : ℕ
  cap : ℚ
deriving DecidableEq, Repr

instance : Inhabited DinicEdge := ⟨⟨0, 0, 0⟩⟩

/-- The epsilon threshold `1e-9` of the source. -/
def eps : ℚ := 1 / 1000000000

/-- Adjacency state of a `Dinic` instance. -/
structure Dinic where
  size : ℕ
  adj : List (List DinicEdge)
deriving Repr

/-- `new Dinic(size)`. -/
def mkDinic (size : ℕ) : Dinic := ⟨size, List.replicate size []⟩

/-- `addEdge(u, v, cap)`: push a forward edge on `adj[u]` and a paired reverse
edge (capacity 0) on `adj[v]`; each records the partner's index.  As in the
source, both `rev` indices are the list lengths read before either push. -/
def addEdge (d : Dinic) (u v : ℕ) (cap : ℚ) : Dinic :=
  let fwd : DinicEdge := ⟨v, (d.adj.getD v []).length, cap⟩
  let rv : DinicEdge := ⟨u, (d.adj.getD u []).length, 0⟩
  let adj1 := d.adj.set u ((d.adj.getD u []) ++ [fwd])
  let adj2 := adj1.set v ((adj1.getD v []) ++ [rv])
  ⟨d.size, adj2⟩

/-- Replace the capacity of edge `i` of node `u` by `f` of its current value
(models the in-place `cap` updates of the source). -/
def updCap (adj : List (List DinicEdge)) (u i : ℕ) (f : ℚ → ℚ) :
    List (List DinicEdge) :=
  let row := adj.getD u []
  let e := row.getD i default
  adj.set u (row.set i ⟨e.«to», e.rev, f e.cap⟩)

/-- Capacity of edge `i` of node `u` (0 when out of range). -/
def capOf (adj : List (List DinicEdge)) (u i : ℕ) : ℚ :=
  ((adj.getD u []).getD i default).cap

/-- One step of the BFS of `maxFlow`: scan `adj[v]`, assign levels to
undiscovered targets of edges with capacity above `eps`, and collect the
newly discovered nodes in queue order. -/
def bfsStep (adj : List (List DinicEdge)) (lv : List Int) (v : ℕ) :
    List Int × List ℕ :=
  (adj.getD v []).foldl
    (fun st e =>
      if eps < e.cap ∧ st.1.getD e.«to» (-1) < 0 then
        (st.1.set e.«to» (st.1.getD v (-1) + 1), st.2 ++ [e.«to»])
      else st)
    (lv, [])

/-- The BFS queue loop (`for (let i = 0; i < q.length; i++)` over a growing
array is a FIFO traversal).  Each node is enqueued at most once (its level is
set, and only nodes with level `< 0` are enqueued), so at most `size` queue
entries are ever processed and fuel `size` is never exhausted. -/
def bfsGo (adj : List (List DinicEdge)) :
    ℕ → List Int → List ℕ → List Int
  | 0, lv, _ => lv
  | _ + 1, lv, [] => lv
  | fuel + 1, lv, v :: q =>
    let st := bfsStep adj lv v
    bfsGo adj fuel st.1 (q ++ st.2)

/-- The `bfs` closure of `maxFlow`: returns the level array. -/
def bfsRun (d : Dinic) (source : ℕ) : List Int :=
  bfsGo d.adj d.size ((List.replicate d.size (-1)).set source 0) [source]

/-- Is `tr > 0` for the extended value (`none` = +∞, and `Infinity > 0`)? -/
def trPos : Option ℚ → Bool
  | none => true
  | some t => decide (0 < t)

/-- `min(pushed, e.cap)` with `pushed` possibly +∞. -/
def pushMin (pushed : Option ℚ) (cap : ℚ) : ℚ :=
  match pushed with
  | none => cap
  | some p => min p cap

/-- The recursive blocking-flow DFS of `maxFlow`.  The source's `for`-loop
over `it[v]` is the self-recursive call that increments `it[v]`; descending
into an admissible edge is the call at `e.«to»`.  `pushed = none` models
`Number.POSITIVE_INFINITY`.  On the success path the two capacity updates
re-read the current capacities, exactly as the JS mutation of live objects
does.  Fuel is decremented on every call; each call either returns, increments
some cursor `it[v]` (bounded by the total adjacency length), or descends along
a success path (bounded by the node count), so `2*(total adjacency length) +
2*size + 10` steps are never exhausted on the source's executions. -/
def dfsRec (sink : ℕ) (level : List Int) :
    ℕ → List (List DinicEdge) → List ℕ → ℕ → Option ℚ →
    Option ℚ × List (List DinicEdge) × List ℕ
  | 0, adj, it, _, _ => (some 0, adj, it)
  | fuel + 1, adj, it, v, pushed =>
    if v = sink ∨ pushed = some 0 then (pushed, adj, it)
    else
      let row := adj.getD v []
      let iv := it.getD v 0
      if iv < row.length then
        let e := row.getD iv default
        if eps < e.cap ∧ level.getD e.«to» (-1) = level.getD v (-1) + 1 then
          let r := dfsRec sink level fuel adj it e.«to» (some (pushMin pushed e.cap))
          if trPos r.1 then
            let trq := r.1.getD 0
            let adj2 := updCap r.2.1 v iv (fun c => c - trq)
            let adj3 := updCap adj2 e.«to» e.rev (fun c => c + trq)
            (r.1, adj3, r.2.2)
          else dfsRec sink level fuel r.2.1 (r.2.2.set v (iv + 1)) v pushed
        else dfsRec sink level fuel adj (it.set v (iv + 1)) v pushed
      else (some 0, adj, it)

/-- Total adjacency length (twice the number of added edges). -/
def totalAdjLen (adj : List (List DinicEdge)) : ℕ :=
  (adj.map List.length).sum

/-- Fuel for one DFS call; see `dfsRec`. -/
def dfsFuel (d : Dinic) : ℕ := 2 * totalAdjLen d.adj + 2 * d.size + 10

/-- The inner `while (pushed > 0)` loop of a phase: call the DFS from the
source with `pushed = Infinity`, accumulate the flow while it succeeds.  Every
successful DFS zeroes the capacity of its bottleneck edge, and within a phase
a zeroed edge can never be refilled (its partner is never admissible), so the
number of iterations is at most the total adjacency length and fuel
`totalAdjLen + 2` is never exhausted. -/
def augLoop (sink : ℕ) (level : List Int) (dfuel : ℕ) :
    ℕ → List (List DinicEdge) → List ℕ → ℚ → ℚ × List (List DinicEdge)
  | 0, adj, _, flow => (flow, adj)
  | fuel + 1, adj, it, flow =>
    let r := dfsRec sink level dfuel adj it 0 none
    if trPos r.1 then augLoop sink level dfuel fuel r.2.1 r.2.2 (flow + r.1.getD 0)
    else (flow, r.2.1)

/-- The `while (bfs())` phase loop of `maxFlow`.  Dinic's algorithm performs at
most `size` phases (the sink's level strictly increases per phase), so fuel
`size + 1` is never exhausted; the returned flag records that the loop exited
because `bfs` failed (it is `true` on every execution the source performs).
The returned state is the final residual network. -/
def phaseLoop (source sink : ℕ) :
    ℕ → Dinic → ℚ → ℚ × Dinic × Bool
  | 0, d, flow => (flow, d, false)
  | pfuel + 1, d, flow =>
    let level := bfsRun d source
    if 0 ≤ level.getD sink (-1) then
      let r := augLoop sink level (dfsFuel d) (totalAdjLen d.adj + 2) d.adj
        (List.replicate d.size 0) flow
      phaseLoop source sink pfuel ⟨d.size, r.2⟩ r.1
    else (flow, d, true)

/-- `maxFlow(source, sink)`: flow value, final residual state, and whether the
loop exited through a failed BFS (always true on the source's executions). -/
def maxFlow (d : Dinic) (source sink : ℕ) : ℚ × Dinic × Bool :=
  phaseLoop source sink (d.size + 1) d 0

/-- One step of `reachable`'s DFS: scan `adj[v]`, mark unseen targets of
above-`eps` edges, and collect them; the JS `stack.push`/`pop` discipline is
matched by prepending in scan order. -/
def reachStep (adj : List (List DinicEdge)) (seen : List Bool) (v : ℕ) :
    List Bool × List ℕ :=
  (adj.getD v []).foldl
    (fun st e =>
      if eps < e.cap ∧ st.1.getD e.«to» false = false then
        (st.1.set e.«to» true, e.«to» :: st.2)
      else st)
    (seen, [])

/-- The stack loop of `reachable`.  Each processed node was pushed, and a node
is pushed only when its `seen` flag flips from false to true, so the number of
pops is at most `size + 1` and that fuel is never exhausted. -/
def reachGo (adj : List (List DinicEdge)) :
    ℕ → List Bool → List ℕ → List Bool
  | 0, seen, _ => seen
  | _ + 1, seen, [] => seen
  | fuel + 1, seen, v :: stk =>
    let st := reachStep adj seen v
    reachGo adj fuel st.1 (st.2 ++ stk)

/-- `reachable(source)`: the visited set of the final residual graph. -/
def reachable (d : Dinic) (source : ℕ) : List Bool :=
  reachGo d.adj (d.size + 1) ((List.replicate d.size false).set source true)
    [source]

/-! ## The closure builder -/

/-- Build the flow network of `buildClosure`: a source edge for each
nonnegative profit, a sink edge for each negative one, and an `INF`-capacity
edge per dependency edge whose endpoints both occur (the source's
`findIndex >= 0` test; `List.findIdx` returns the length when absent). -/
def buildNetwork (g : Graph) (penalty : ℚ) (inf : ℚ) : Dinic :=
  let n := g.chunks.length
  let d1 := g.chunks.enum.foldl
    (fun d p =>
      let node := p.1 + 2
      let w := p.2.weight - penalty
      if 0 ≤ w then addEdge d 0 node w else addEdge d node 1 (-w))
    (mkDinic (n + 2))
  g.edges.foldl
    (fun d e =>
      let fi := g.chunks.findIdx (fun c => c.id = e.fromId)
      let ti := g.chunks.findIdx (fun c => c.id = e.toId)
      if fi < n ∧ ti < n then addEdge d (fi + 2) (ti + 2) inf else d)
    d1

/-- `INF` of `buildClosure`: `Σ |weight − penalty| + 1`. -/
def infCap (g : Graph) (penalty : ℚ) : ℚ :=
  (g.chunks.map Chunk.weight).foldl (fun acc w => acc + |w - penalty|) 0 + 1

/-- The visited set of `reachable(source)` on the final residual network of
`buildClosure`'s run. -/
def reachSet (g : Graph) (penalty : ℚ) : List Bool :=
  reachable (maxFlow (buildNetwork g penalty (infCap g penalty)) 0 1).2.1 0

/-- The closure ids collected by `buildClosure` (chunk order). -/
def closureIdsOf (g : Graph) (penalty : ℚ) : List ChunkId :=
  g.chunks.enum.foldl
    (fun acc p =>
      if (reachSet g penalty).getD (p.1 + 2) false = true then acc ++ [p.2.id]
      else acc)
    []

/-- `buildClosure(graph, penalty)`. -/
def buildClosure (g : Graph) (penalty : ℚ) : ClosureSolution :=
  if g.chunks.length = 0 then ⟨[], 0, 0, some penalty⟩
  else
    let closure := closureIdsOf g penalty
    let totalWeight := closure.foldl (fun acc a => acc + weightOf g a) 0
    ⟨closure, totalWeight, closure.length, some penalty⟩

/-- `maximumWeightClosure(graph)`. -/
def maximumWeightClosure (g : Graph) : ClosureSolution := buildClosure g 0

/-! ## The size enforcer -/

/-- Stable insert for the ascending-by-weight sort. -/
def insertAsc (w : ChunkId → ℚ) (a : ChunkId) : List ChunkId → List ChunkId
  | [] => [a]
  | b :: l => if w a ≤ w b then a :: b :: l else b :: insertAsc w a l

/-- Stable ascending sort by weight: the unique stable sort, hence equal to the
source's `sort((a, b) => weights[a] - weights[b])` (JS `Array.sort` is
guaranteed stable). -/
def sortAsc (w : ChunkId → ℚ) : List ChunkId → List ChunkId
  | [] => []
  | a :: l => insertAsc w a (sortAsc w l)

/-- Stable insert for the descending-by-weight sort. -/
def insertDesc (w : ChunkId → ℚ) (a : ChunkId) : List ChunkId → List ChunkId
  | [] => [a]
  | b :: l => if w b ≤ w a then a :: b :: l else b :: insertDesc w a l

/-- Stable descending sort by weight (`sort((a, b) => weights[b] - weights[a])`). -/
def sortDesc (w : ChunkId → ℚ) : List ChunkId → List ChunkId
  | [] => []
  | a :: l => insertDesc w a (sortDesc w l)

/-- `new Set(closureIds)` as an insertion-ordered duplicate-free list. -/
def jsDedup (l : List ChunkId) : List ChunkId :=
  l.foldl (fun acc x => if x ∈ acc then acc else acc ++ [x]) []

/-- Is some dependent of `cid` still kept?  The source builds a reverse map
`dependents : Map<ChunkId, Set<ChunkId>>` from all edges and then tests
`[...deps].some((d) => keep.has(d))`; a missing entry yields `false`, so the
test is exactly: some edge into `cid` has its origin in `keep`. -/
def isDependency (g : Graph) (cid : ChunkId) (keep : List ChunkId) : Bool :=
  ((g.edges.filter (fun e => e.toId = cid)).map Edge.fromId).any
    (fun d => decide (d ∈ keep))

/-- The removal walk of `enforceSizeLimit`: over the ascending list, stop once
the keep set is within `k`, and drop members none of whose dependents are
kept. -/
def removeLoop (g : Graph) (k : ℤ) :
    List ChunkId → List ChunkId → List ChunkId
  | [], keep => keep
  | cid :: rest, keep =>
    if (keep.length : ℤ) ≤ k then keep
    else if isDependency g cid keep then removeLoop g k rest keep
    else removeLoop g k rest (keep.erase cid)

/-- The keep set after the removal walk.  For ids in `closureIds` the source's
`weights` record holds `graph.chunks[id]?.weight ?? 0`, i.e. `weightOf`. -/
def enforceKeep (g : Graph) (closureIds : List ChunkId) (k : ℤ) : List ChunkId :=
  removeLoop g k (sortAsc (weightOf g) closureIds) (jsDedup closureIds)

/-- Was the last-resort fallback (top-`k` by weight, closedness unchecked)
taken? -/
def fallbackTaken (g : Graph) (closureIds : List ChunkId) (k : ℤ) : Prop :=
  ¬ (closureIds.length : ℤ) ≤ k ∧ k < ((enforceKeep g closureIds k).length : ℤ)

instance (g : Graph) (ids : List ChunkId) (k : ℤ) :
    Decidable (fallbackTaken g ids k) := by
  unfold fallbackTaken; infer_instance

/-- `enforceSizeLimit(graph, closureIds, k)`. -/
def enforceSizeLimit (g : Graph) (closureIds : List ChunkId) (k : ℤ) :
    List ChunkId :=
  if (closureIds.length : ℤ) ≤ k then closureIds
  else
    let keep := enforceKeep g closureIds k
    if k < (keep.length : ℤ) then (sortDesc (weightOf g) keep).take k.toNat
    else keep

/-! ## The size-target search -/

/-- The 36-iteration binary search on the penalty. -/
def searchLoop (g : Graph) (k : ℤ) :
    ℕ → ℚ → ℚ → Option ClosureSolution → Option ClosureSolution
  | 0, _, _, best => best
  | i + 1, low, high, best =>
    let penalty := (low + high) / 2
    let cand := buildClosure g penalty
    let best' :=
      match best with
      | none => some cand
      | some b =>
        if |(cand.size : ℤ) - k| < |(b.size : ℤ) - k| ∨
            (|(cand.size : ℤ) - k| = |(b.size : ℤ) - k| ∧
              b.totalWeight < cand.totalWeight) then
          some cand
        else some b
    if k < (cand.size : ℤ) then searchLoop g k i penalty high best'
    else searchLoop g k i low penalty best'

/-- The best candidate of `solveClosureBySize`'s search (the source's `best`,
never `null` after 36 iterations, with the defensive `?? maximumWeightClosure`
fallback). -/
def searchBest (g : Graph) (k : ℤ) : ClosureSolution :=
  let weights := g.chunks.map Chunk.weight
  let minW := weights.foldl min (weights.headD 0)
  let maxW := weights.foldl max (weights.headD 0)
  let low := minW - |minW| - 5
  let high := maxW + |maxW| + 5
  (searchLoop g k 36 low high none).getD (maximumWeightClosure g)

/-- `solveClosureBySize(graph, k)`.  The `k ≤ 0`/empty branch builds a record
without the optional `penalty` field; the final record spreads `best`, so it
keeps the best candidate's penalty. -/
def solveClosureBySize (g : Graph) (k : ℤ) : ClosureSolution :=
  if k ≤ 0 ∨ g.chunks.length = 0 then ⟨[], 0, 0, none⟩
  else if (g.chunks.length : ℤ) ≤ k then maximumWeightClosure g
  else
    let final := searchBest g k
    let finalIds := enforceSizeLimit g final.closure k
    let total := finalIds.foldl (fun acc a => acc + weightOf g a) 0
    ⟨finalIds, total, finalIds.length, final.penalty⟩

/-! ## Observers of the flow state (used only in the verification) -/

/-- Target field of edge `i` of node `u`. -/
def toOf (adj : List (List DinicEdge)) (u i : ℕ) : ℕ :=
  ((adj.getD u []).getD i default).«to»

/-- Reverse-index field of edge `i` of node `u`. -/
def revOf (adj : List (List DinicEdge)) (u i : ℕ) : ℕ :=
  ((adj.getD u []).getD i default).rev

/-- Total residual capacity on the source row (node 0). -/
def srcSum (adj : List (List DinicEdge)) : ℚ :=
  ((adj.getD 0 []).map DinicEdge.cap).sum

/-- Everything the blocking-flow DFS guarantees, relative to the state it was
started in: the returned value is nonnegative and bounded by `pushed`;
every capacity drops by at most the returned value and stays nonnegative;
rows of nodes below the current level are untouched; a call at the source
removes at least the returned value from the source row's total capacity;
and the adjacency structure (lengths, targets, reverse indices) is
unchanged. -/
def DfsPost (level : List Int) (adj : List (List DinicEdge)) (v : ℕ)
    (pushed : Option ℚ) (r : Option ℚ × List (List DinicEdge) × List ℕ) : Prop :=
  0 ≤ r.1.getD 0 ∧
  (∀ q, pushed = some q → r.1.getD 0 ≤ q) ∧
  (∀ u i, capOf adj u i - r.1.getD 0 ≤ capOf r.2.1 u i) ∧
  (∀ u i, 0 ≤ capOf r.2.1 u i) ∧
  (∀ u, level.getD u (-1) < level.getD v (-1) → r.2.1.getD u [] = adj.getD u []) ∧
  (v = 0 → srcSum r.2.1 + r.1.getD 0 ≤ srcSum adj) ∧
  (∀ u, (r.2.1.getD u []).length = (adj.getD u []).length) ∧
  (∀ u i, toOf r.2.1 u i = toOf adj u i ∧ revOf r.2.1 u i = revOf adj u i) ∧
  r.2.1.length = adj.length

/-! ## Metadata erasure (for the determinism claim)

The solver reads only `id` and `weight` of a chunk and only `from`/`to` of an
edge; `canon` erases every other (descriptive) field. -/

/-- Erase the descriptive fields of a chunk. -/
def canonChunk (c : Chunk) : Chunk := ⟨c.id, c.weight, ""⟩

/-- Erase the descriptive fields of an edge. -/
def canonEdge (e : Edge) : Edge := ⟨e.fromId, e.toId, none⟩

/-- Erase all descriptive fields of a graph. -/
def canon (g : Graph) : Graph := ⟨g.chunks.map canonChunk, g.edges.map canonEdge⟩

/-! ## Concrete instances used below -/

/-- Example A of the specification: chunk A weight 10, chunk B weight −3,
edge A→B. -/
def exampleA : Graph := ⟨[⟨"A", 10, ""⟩, ⟨"B", -3, ""⟩], [⟨"A", "B", none⟩]⟩

/-- Example B of the specification: chain A→B→C with weights 10, 5, 1. -/
def chainGraph : Graph :=
  ⟨[⟨"A", 10, ""⟩, ⟨"B", 5, ""⟩, ⟨"C", 1, ""⟩],
    [⟨"A", "B", none⟩, ⟨"B", "C", none⟩]⟩

/-- A graph whose weights lie at the scale of the `1e-9` capacity threshold:
A and B weigh −1e-9 each, C weighs 1.5e-9, and A→B, C→A.  Both sink edges
(capacity 1e-9) are below the strict `> 1e-9` test, so no flow is pushed and
the whole graph is returned as the "maximum weight" closure although its
total weight is negative. -/
def epsGraph : Graph :=
  ⟨[⟨"A", -eps, ""⟩, ⟨"B", -eps, ""⟩, ⟨"C", 3 * eps / 2, ""⟩],
    [⟨"A", "B", none⟩, ⟨"C", "A", none⟩]⟩

/-- A single chunk of weight 0 and no edges. -/
def zeroGraph : Graph := ⟨[⟨"A", 0, ""⟩], []⟩

/-- A graph with a dependency edge whose target id is not a key. -/
def danglingGraph : Graph := ⟨[⟨"A", 5, ""⟩], [⟨"A", "ghost", none⟩]⟩

/-- The empty graph. -/
def emptyGraph : Graph := ⟨[], []⟩

end Discorg

namespace Discorg

/-! ## General lemmas about the solver -/

theorem foldl_select_eq (P : ℕ × Chunk → Prop) [DecidablePred P] :
    ∀ (l : List (ℕ × Chunk)) (acc : List ChunkId),
      l.foldl (fun acc p => if P p then acc ++ [p.2.id] else acc) acc =
        acc ++ (l.filter (fun p => decide (P p))).map (fun p => p.2.id) := by
  intro l
  induction l with
  | nil => simp
  | cons hd tl ih =>
    intro acc
    by_cases h : P hd <;> simp [h, ih, List.filter_cons]

theorem closureIdsOf_eq_filter (g : Graph) (p : ℚ) :
    closureIdsOf g p =
      (g.chunks.enum.filter
        (fun q => decide ((reachSet g p).getD (q.1 + 2) false = true))).map
        (fun q => q.2.id) := by
  rw [closureIdsOf,
    foldl_select_eq (fun q : ℕ × Chunk => (reachSet g p).getD (q.1 + 2) false = true)]
  simp

theorem closureIdsOf_sublist (g : Graph) (p : ℚ) :
    List.Sublist (closureIdsOf g p) (g.chunks.map Chunk.id) := by
  rw [closureIdsOf_eq_filter]
  have h1 : List.Sublist
      ((g.chunks.enum.filter
        (fun q => decide ((reachSet g p).getD (q.1 + 2) false = true))).map
        (fun q : ℕ × Chunk => q.2.id))
      (g.chunks.enum.map (fun q : ℕ × Chunk => q.2.id)) :=
    List.Sublist.map _ (List.filter_sublist _)
  have h2 : g.chunks.enum.map (fun q : ℕ × Chunk => q.2.id) =
      g.chunks.map Chunk.id := by
    have h3 : (fun q : ℕ × Chunk => q.2.id) = Chunk.id ∘ Prod.snd := rfl
    rw [h3, ← List.map_map, List.enum_map_snd]
  rwa [h2] at h1

theorem buildClosure_closure_eq (g : Graph) (p : ℚ) :
    (buildClosure g p).closure = closureIdsOf g p := by
  rw [buildClosure]
  split
  · rename_i h
    have : g.chunks = [] := List.length_eq_zero.1 h
    simp [closureIdsOf, this]
  · rfl

theorem buildClosure_closure_sublist (g : Graph) (p : ℚ) :
    List.Sublist (buildClosure g p).closure (g.chunks.map Chunk.id) := by
  rw [buildClosure_closure_eq]; exact closureIdsOf_sublist g p

theorem buildClosure_closure_subset_keys (g : Graph) (p : ℚ) :
    ∀ a ∈ (buildClosure g p).closure, isKey g a := by
  intro a ha
  have h := (buildClosure_closure_sublist g p).subset ha
  rcases List.mem_map.1 h with ⟨c, hc, rfl⟩
  exact ⟨c, hc, rfl⟩

theorem buildClosure_closure_nodup (g : Graph) (p : ℚ) (hw : g.Wf) :
    (buildClosure g p).closure.Nodup :=
  hw.sublist (buildClosure_closure_sublist g p)

theorem buildClosure_closure_length_le (g : Graph) (p : ℚ) :
    (buildClosure g p).closure.length ≤ g.chunks.length := by
  have := (buildClosure_closure_sublist g p).length_le
  simpa using this

theorem buildClosure_size (g : Graph) (p : ℚ) :
    (buildClosure g p).size = (buildClosure g p).closure.length := by
  rw [buildClosure]; split <;> simp

theorem buildClosure_penalty (g : Graph) (p : ℚ) :
    (buildClosure g p).penalty = some p := by
  rw [buildClosure]; split <;> simp

/-- The best candidate of the binary search is an output of the closure
builder at some penalty. -/
theorem searchLoop_spec (g : Graph) (k : ℤ) :
    ∀ (i : ℕ) (low high : ℚ) (best : Option ClosureSolution),
      (∀ b, best = some b → ∃ p, b = buildClosure g p) →
      ∀ r, searchLoop g k i low high best = some r → ∃ p, r = buildClosure g p := by
  intro i
  induction i with
  | zero => intro low high best hb r hr; exact hb r hr
  | succ n ih =>
    intro low high best hb r hr
    simp only [searchLoop] at hr
    cases best with
    | none =>
      simp only at hr
      split at hr <;>
        exact ih _ _ _
          (fun b hbm => ⟨(low + high) / 2, (Option.some.inj hbm).symm⟩) r hr
    | some b0 =>
      simp only at hr
      split at hr <;> split at hr <;>
        first
          | exact ih _ _ _
              (fun b hbm => ⟨(low + high) / 2, (Option.some.inj hbm).symm⟩) r hr
          | exact ih _ _ _
              (fun b hbm => (Option.some.inj hbm) ▸ hb b0 rfl) r hr

theorem searchBest_spec (g : Graph) (k : ℤ) :
    ∃ p, searchBest g k = buildClosure g p := by
  rw [searchBest]
  cases hr : searchLoop g k 36
    ((g.chunks.map Chunk.weight).foldl min ((g.chunks.map Chunk.weight).headD 0) -
      |(g.chunks.map Chunk.weight).foldl min ((g.chunks.map Chunk.weight).headD 0)| - 5)
    ((g.chunks.map Chunk.weight).foldl max ((g.chunks.map Chunk.weight).headD 0) +
      |(g.chunks.map Chunk.weight).foldl max ((g.chunks.map Chunk.weight).headD 0)| + 5)
    none with
  | none => exact ⟨0, by simp [hr, maximumWeightClosure]⟩
  | some r =>
    rcases searchLoop_spec g k 36 _ _ none (by intro b h; cases h) r hr with ⟨p, hp⟩
    exact ⟨p, by simp [hr, hp]⟩

theorem insertDesc_perm (w : ChunkId → ℚ) (a : ChunkId) :
    ∀ l : List ChunkId, List.Perm (insertDesc w a l) (a :: l) := by
  intro l
  induction l with
  | nil => simp [insertDesc]
  | cons b t ih =>
    rw [insertDesc]
    split
    · exact List.Perm.refl _
    · exact (ih.cons b).trans (List.Perm.swap a b t)

theorem sortDesc_perm (w : ChunkId → ℚ) :
    ∀ l : List ChunkId, List.Perm (sortDesc w l) l := by
  intro l
  induction l with
  | nil => simp [sortDesc]
  | cons a t ih => exact (insertDesc_perm w a (sortDesc w t)).trans (ih.cons a)

theorem jsDedup_go (l : List ChunkId) :
    ∀ acc : List ChunkId, acc.Nodup →
      (l.foldl (fun acc x => if x ∈ acc then acc else acc ++ [x]) acc).Nodup ∧
        ∀ x, x ∈ l.foldl (fun acc x => if x ∈ acc then acc else acc ++ [x]) acc ↔
          x ∈ acc ∨ x ∈ l := by
  induction l with
  | nil => intro acc h; simp [h]
  | cons b t ih =>
    intro acc h
    simp only [List.foldl_cons]
    by_cases hb : b ∈ acc
    · rw [if_pos hb]
      refine ⟨(ih acc h).1, fun x => ?_⟩
      rw [(ih acc h).2 x]
      constructor
      · rintro (hx | hx)
        · exact Or.inl hx
        · exact Or.inr (List.mem_cons_of_mem b hx)
      · rintro (hx | hx)
        · exact Or.inl hx
        · rcases List.mem_cons.1 hx with rfl | hx
          · exact Or.inl hb
          · exact Or.inr hx
    · rw [if_neg hb]
      have hacc : (acc ++ [b]).Nodup := by
        simp [List.nodup_append, h, hb]
      refine ⟨(ih _ hacc).1, fun x => ?_⟩
      rw [(ih _ hacc).2 x]
      simp only [List.mem_append, List.mem_singleton, List.mem_cons]
      tauto

theorem jsDedup_nodup (l : List ChunkId) : (jsDedup l).Nodup :=
  (jsDedup_go l [] List.nodup_nil).1

theorem jsDedup_mem (l : List ChunkId) (x : ChunkId) : x ∈ jsDedup l ↔ x ∈ l := by
  have := (jsDedup_go l [] List.nodup_nil).2 x
  simpa [jsDedup] using this

theorem removeLoop_subset (g : Graph) (k : ℤ) :
    ∀ (rem keep : List ChunkId), removeLoop g k rem keep ⊆ keep := by
  intro rem
  induction rem with
  | nil => intro keep; rw [removeLoop]; exact fun _ h => h
  | cons cid t ih =>
    intro keep
    rw [removeLoop]
    split
    · exact fun _ h => h
    · split
      · exact ih keep
      · exact fun x hx => List.erase_subset cid keep (ih (keep.erase cid) hx)

theorem removeLoop_nodup (g : Graph) (k : ℤ) :
    ∀ (rem keep : List ChunkId), keep.Nodup → (removeLoop g k rem keep).Nodup := by
  intro rem
  induction rem with
  | nil => intro keep h; rw [removeLoop]; exact h
  | cons cid t ih =>
    intro keep h
    rw [removeLoop]
    split
    · exact h
    · split
      · exact ih keep h
      · exact ih _ (h.erase cid)

theorem enforceKeep_subset (g : Graph) (ids : List ChunkId) (k : ℤ) :
    enforceKeep g ids k ⊆ ids := by
  intro x hx
  exact (jsDedup_mem ids x).1 (removeLoop_subset g k _ _ hx)

theorem enforceKeep_nodup (g : Graph) (ids : List ChunkId) (k : ℤ) :
    (enforceKeep g ids k).Nodup :=
  removeLoop_nodup g k _ _ (jsDedup_nodup ids)

theorem enforceSizeLimit_subset (g : Graph) (ids : List ChunkId) (k : ℤ) :
    enforceSizeLimit g ids k ⊆ ids := by
  simp only [enforceSizeLimit]
  split
  · exact fun _ h => h
  · split
    · intro x hx
      have h1 : x ∈ sortDesc (weightOf g) (enforceKeep g ids k) :=
        List.take_subset _ _ hx
      have h2 : x ∈ enforceKeep g ids k :=
        (sortDesc_perm (weightOf g) _).subset h1
      exact enforceKeep_subset g ids k h2
    · exact enforceKeep_subset g ids k

theorem enforceSizeLimit_nodup (g : Graph) (ids : List ChunkId) (k : ℤ)
    (h : ids.Nodup) : (enforceSizeLimit g ids k).Nodup := by
  simp only [enforceSizeLimit]
  split
  · exact h
  · split
    · exact ((((sortDesc_perm (weightOf g) _).nodup_iff).2
        (enforceKeep_nodup g ids k)).sublist (List.take_sublist _ _))
    · exact enforceKeep_nodup g ids k

theorem enforceSizeLimit_length_le (g : Graph) (ids : List ChunkId) (k : ℤ)
    (hk : 0 ≤ k) : ((enforceSizeLimit g ids k).length : ℤ) ≤ k := by
  simp only [enforceSizeLimit]
  split
  · assumption
  · split
    · rename_i hlen
      have h1 : ((sortDesc (weightOf g) (enforceKeep g ids k)).take k.toNat).length
          ≤ k.toNat := by
        simpa using List.length_take_le k.toNat _
      calc (((sortDesc (weightOf g) (enforceKeep g ids k)).take k.toNat).length : ℤ)
          ≤ (k.toNat : ℤ) := by exact_mod_cast h1
        _ = k := Int.toNat_of_nonneg hk
    · omega

/-! ## Theorems for the universally quantified claims -/

/-- **C2 (amended)**: for every graph and every integer `k > 0`,
`solveClosureBySize(graph, k).size ≤ k`; and for every *nonempty* graph and
every `k ≥ |chunks|`, `solveClosureBySize(graph, k)` equals
`maximumWeightClosure(graph)`.  (On the empty graph the two differ in the
optional `penalty` field, see `C2_empty_graph_mismatch`.) -/
theorem C2_size_bound_and_equality :
    (∀ (g : Graph) (k : ℤ), 0 < k → ((solveClosureBySize g k).size : ℤ) ≤ k) ∧
      ∀ (g : Graph) (k : ℤ), g.chunks ≠ [] → (g.chunks.length : ℤ) ≤ k →
        solveClosureBySize g k = maximumWeightClosure g := by
  constructor
  · intro g k hk
    simp only [solveClosureBySize]
    split
    · simp only []
      omega
    · split
      · rename_i h1 h2
        calc ((maximumWeightClosure g).size : ℤ)
            = ((buildClosure g 0).closure.length : ℤ) := by
              rw [maximumWeightClosure, buildClosure_size]
          _ ≤ (g.chunks.length : ℤ) := by
              exact_mod_cast buildClosure_closure_length_le g 0
          _ ≤ k := h2
      · exact enforceSizeLimit_length_le g (searchBest g k).closure k (le_of_lt hk)
  · intro g k hne hk
    have h1 : ¬(k ≤ 0 ∨ g.chunks.length = 0) := by
      push_neg
      refine ⟨?_, fun h => hne (List.length_eq_zero.1 h)⟩
      have h2 : 0 < g.chunks.length := List.length_pos.2 hne
      omega
    rw [solveClosureBySize, if_neg h1, if_pos hk]

/-- **C2, witness instance**. -/
theorem C2_size_bound_and_equality_witness :
    ((solveClosureBySize exampleA 1).size : ℤ) ≤ 1 ∧
      solveClosureBySize exampleA 2 = maximumWeightClosure exampleA :=
  ⟨C2_size_bound_and_equality.1 exampleA 1 (by decide),
    C2_size_bound_and_equality.2 exampleA 2 (by decide) (by decide)⟩

/-- **C10**: for every well-formed graph and every `k`, each id in the closure
returned by `solveClosureBySize` is a key of `graph.chunks` and appears
exactly once (the closure list has no duplicates); moreover the Size
Enforcer's output is always a subset of its input closure list. -/
theorem C10_closure_ids_valid :
    (∀ (g : Graph) (k : ℤ), g.Wf →
        (∀ a ∈ (solveClosureBySize g k).closure, isKey g a) ∧
          (solveClosureBySize g k).closure.Nodup) ∧
      ∀ (g : Graph) (ids : List ChunkId) (k : ℤ), enforceSizeLimit g ids k ⊆ ids := by
  constructor
  · intro g k hw
    simp only [solveClosureBySize]
    split
    · simp
    · split
      · exact ⟨buildClosure_closure_subset_keys g 0, buildClosure_closure_nodup g 0 hw⟩
      · rcases searchBest_spec g k with ⟨p, hp⟩
        constructor
        · intro a ha
          have h1 : a ∈ (searchBest g k).closure :=
            enforceSizeLimit_subset g (searchBest g k).closure k ha
          rw [hp] at h1
          exact buildClosure_closure_subset_keys g p a h1
        · apply enforceSizeLimit_nodup
          rw [hp]
          exact buildClosure_closure_nodup g p hw
  · exact fun g ids k => enforceSizeLimit_subset g ids k

/-- **C10, witness instance**. -/
theorem C10_closure_ids_valid_witness :
    exampleA.Wf ∧ (∀ a ∈ (solveClosureBySize exampleA 1).closure, isKey exampleA a) ∧
      (solveClosureBySize exampleA 1).closure.Nodup :=
  ⟨by decide, (C10_closure_ids_valid.1 exampleA 1 (by decide)).1,
    (C10_closure_ids_valid.1 exampleA 1 (by decide)).2⟩

theorem insertAsc_perm (w : ChunkId → ℚ) (a : ChunkId) :
    ∀ l : List ChunkId, List.Perm (insertAsc w a l) (a :: l) := by
  intro l
  induction l with
  | nil => simp [insertAsc]
  | cons b t ih =>
    rw [insertAsc]
    split
    · exact List.Perm.refl _
    · exact (ih.cons b).trans (List.Perm.swap a b t)

theorem sortAsc_perm (w : ChunkId → ℚ) :
    ∀ l : List ChunkId, List.Perm (sortAsc w l) l := by
  intro l
  induction l with
  | nil => simp [sortAsc]
  | cons a t ih => exact (insertAsc_perm w a (sortAsc w t)).trans (ih.cons a)

/-! ### Removing a dangling edge does not change the solver's behaviour -/

theorem foldl_erase_of_skip {α β : Type} [DecidableEq α] (f : β → α → β) (e : α)
    (h : ∀ d, f d e = d) :
    ∀ (l : List α) (d0 : β), (l.erase e).foldl f d0 = l.foldl f d0 := by
  intro l
  induction l with
  | nil => intro d0; rfl
  | cons a t ih =>
    intro d0
    by_cases ha : a = e
    · subst ha
      rw [List.erase_cons_head, List.foldl_cons, h]
    · rw [List.erase_cons_tail (by simpa using ha), List.foldl_cons,
        List.foldl_cons, ih]

theorem isKey_iff_findIdx (g : Graph) (a : ChunkId) :
    isKey g a ↔ g.chunks.findIdx (fun c => c.id = a) < g.chunks.length := by
  rw [isKey, List.findIdx_lt_length]
  constructor
  · rintro ⟨c, hc, rfl⟩; exact ⟨c, hc, by simp⟩
  · rintro ⟨c, hc, hp⟩; exact ⟨c, hc, by simpa using hp⟩

/-- An edge with an absent endpoint is skipped when the flow network is
built, so building on the graph without it gives the same network. -/
theorem buildNetwork_erase (g : Graph) (e : Edge)
    (he : ¬ isKey g e.fromId ∨ ¬ isKey g e.toId) (p inf : ℚ) :
    buildNetwork ⟨g.chunks, g.edges.erase e⟩ p inf = buildNetwork g p inf := by
  rw [buildNetwork, buildNetwork]
  apply foldl_erase_of_skip
  intro d
  have hcond : ¬ (g.chunks.findIdx (fun c => c.id = e.fromId) < g.chunks.length ∧
      g.chunks.findIdx (fun c => c.id = e.toId) < g.chunks.length) := by
    rcases he with h | h
    · exact fun hc => h ((isKey_iff_findIdx g e.fromId).2 hc.1)
    · exact fun hc => h ((isKey_iff_findIdx g e.toId).2 hc.2)
  simp only [if_neg hcond]

theorem buildClosure_erase (g : Graph) (e : Edge)
    (he : ¬ isKey g e.fromId ∨ ¬ isKey g e.toId) (p : ℚ) :
    buildClosure ⟨g.chunks, g.edges.erase e⟩ p = buildClosure g p := by
  have hnet : reachSet ⟨g.chunks, g.edges.erase e⟩ p = reachSet g p := by
    rw [reachSet, reachSet]
    rw [show infCap ⟨g.chunks, g.edges.erase e⟩ p = infCap g p from rfl]
    rw [buildNetwork_erase g e he]
  have hcl : closureIdsOf ⟨g.chunks, g.edges.erase e⟩ p = closureIdsOf g p := by
    rw [closureIdsOf, closureIdsOf, hnet]
  simp only [buildClosure, hcl]
  rfl

theorem searchLoop_congr (g1 g2 : Graph) (k : ℤ)
    (h : ∀ p, buildClosure g1 p = buildClosure g2 p) :
    ∀ (i : ℕ) (low high : ℚ) (best : Option ClosureSolution),
      searchLoop g1 k i low high best = searchLoop g2 k i low high best := by
  intro i
  induction i with
  | zero => intro low high best; rfl
  | succ n ih =>
    intro low high best
    simp only [searchLoop, h ((low + high) / 2), ih]

/-- `isDependency` tests whether some edge into `cid` starts inside `keep`. -/
theorem isDependency_iff (g : Graph) (cid : ChunkId) (keep : List ChunkId) :
    isDependency g cid keep = true ↔
      ∃ ed ∈ g.edges, ed.toId = cid ∧ ed.fromId ∈ keep := by
  rw [isDependency]
  simp only [List.any_eq_true, List.mem_map, List.mem_filter, decide_eq_true_eq]
  constructor
  · rintro ⟨d, ⟨ed, ⟨hed, ht⟩, rfl⟩, hk⟩
    exact ⟨ed, hed, by simpa using ht, hk⟩
  · rintro ⟨ed, hed, ht, hk⟩
    exact ⟨ed.fromId, ⟨ed, ⟨hed, by simpa using ht⟩, rfl⟩, hk⟩

theorem isDependency_erase (g : Graph) (e : Edge)
    (he : ¬ isKey g e.fromId ∨ ¬ isKey g e.toId) (cid : ChunkId)
    (hcid : isKey g cid) (keep : List ChunkId)
    (hkeep : ∀ x ∈ keep, isKey g x) :
    isDependency ⟨g.chunks, g.edges.erase e⟩ cid keep = isDependency g cid keep := by
  rw [Bool.eq_iff_iff, isDependency_iff, isDependency_iff]
  constructor
  · rintro ⟨ed, hed, ht, hk⟩
    exact ⟨ed, List.mem_of_mem_erase hed, ht, hk⟩
  · rintro ⟨ed, hed, ht, hk⟩
    have hede : ed ≠ e := by
      rintro rfl
      rcases he with h | h
      · exact h (hkeep _ hk)
      · exact h (ht ▸ hcid)
    exact ⟨ed, (List.mem_erase_of_ne hede).2 hed, ht, hk⟩

theorem removeLoop_erase (g : Graph) (e : Edge)
    (he : ¬ isKey g e.fromId ∨ ¬ isKey g e.toId) (k : ℤ) :
    ∀ (rem keep : List ChunkId), (∀ x ∈ rem, isKey g x) →
      (∀ x ∈ keep, isKey g x) →
      removeLoop ⟨g.chunks, g.edges.erase e⟩ k rem keep = removeLoop g k rem keep := by
  intro rem
  induction rem with
  | nil => intro keep _ _; rfl
  | cons cid t ih =>
    intro keep hrem hkeep
    rw [removeLoop, removeLoop]
    split
    · rfl
    · rw [isDependency_erase g e he cid (hrem cid (List.mem_cons_self cid t)) keep hkeep]
      split
      · exact ih keep (fun x hx => hrem x (List.mem_cons_of_mem cid hx)) hkeep
      · exact ih _ (fun x hx => hrem x (List.mem_cons_of_mem cid hx))
          (fun x hx => hkeep x (List.erase_subset cid keep hx))

theorem enforceSizeLimit_erase (g : Graph) (e : Edge)
    (he : ¬ isKey g e.fromId ∨ ¬ isKey g e.toId) (ids : List ChunkId)
    (hids : ∀ x ∈ ids, isKey g x) (k : ℤ) :
    enforceSizeLimit ⟨g.chunks, g.edges.erase e⟩ ids k = enforceSizeLimit g ids k := by
  have hw : weightOf ⟨g.chunks, g.edges.erase e⟩ = weightOf g := rfl
  have hkeep : enforceKeep ⟨g.chunks, g.edges.erase e⟩ ids k = enforceKeep g ids k := by
    rw [enforceKeep, enforceKeep, hw]
    exact removeLoop_erase g e he k _ _
      (fun x hx => hids x ((sortAsc_perm (weightOf g) ids).subset hx))
      (fun x hx => hids x ((jsDedup_mem ids x).1 hx))
  rw [enforceSizeLimit, enforceSizeLimit, hkeep, hw]

/-- **C7**: the solver never raises (all model functions are total), and a
dependency edge with an absent endpoint contributes nothing: both entry
points return the same `ClosureSolution` as on the graph with that edge
removed. -/
theorem C7_invalid_edges_dropped (g : Graph) (e : Edge)
    (he : ¬ isKey g e.fromId ∨ ¬ isKey g e.toId) (k : ℤ) :
    maximumWeightClosure ⟨g.chunks, g.edges.erase e⟩ = maximumWeightClosure g ∧
      solveClosureBySize ⟨g.chunks, g.edges.erase e⟩ k = solveClosureBySize g k := by
  have hmax : maximumWeightClosure ⟨g.chunks, g.edges.erase e⟩ = maximumWeightClosure g := by
    rw [maximumWeightClosure, maximumWeightClosure, buildClosure_erase g e he]
  refine ⟨hmax, ?_⟩
  have hsb : searchBest ⟨g.chunks, g.edges.erase e⟩ k = searchBest g k := by
    rw [searchBest, searchBest, hmax,
      searchLoop_congr ⟨g.chunks, g.edges.erase e⟩ g k
        (fun p => buildClosure_erase g e he p)]
  have hfin : ∀ x ∈ (searchBest g k).closure, isKey g x := by
    rcases searchBest_spec g k with ⟨p, hp⟩
    rw [hp]
    exact buildClosure_closure_subset_keys g p
  have henf : enforceSizeLimit ⟨g.chunks, g.edges.erase e⟩ (searchBest g k).closure k =
      enforceSizeLimit g (searchBest g k).closure k :=
    enforceSizeLimit_erase g e he _ hfin k
  simp only [solveClosureBySize, hmax, hsb, henf]
  rfl

/-- **C7, witness instance**: removing the dangling edge of `danglingGraph`
changes neither entry point's output. -/
theorem C7_invalid_edges_dropped_witness :
    maximumWeightClosure ⟨danglingGraph.chunks, danglingGraph.edges.erase ⟨"A", "ghost", none⟩⟩ =
        maximumWeightClosure danglingGraph ∧
      solveClosureBySize ⟨danglingGraph.chunks, danglingGraph.edges.erase ⟨"A", "ghost", none⟩⟩ 1 =
        solveClosureBySize danglingGraph 1 :=
  C7_invalid_edges_dropped danglingGraph ⟨"A", "ghost", none⟩ (Or.inr (by decide)) 1

/-! ### Determinism: the result only depends on ids, weights and edge
endpoints, in their given order -/

theorem findIdx_map (p : Chunk → Bool) (f : Chunk → Chunk) :
    ∀ l : List Chunk, (l.map f).findIdx p = l.findIdx (fun c => p (f c)) := by
  intro l
  induction l with
  | nil => rfl
  | cons a t ih => simp [List.findIdx_cons, ih]

theorem weightOf_canon (g : Graph) : weightOf (canon g) = weightOf g := by
  funext a
  rw [weightOf, weightOf, canon]
  simp only [List.find?_map]
  have hp : ((fun c : Chunk => decide (c.id = a)) ∘ canonChunk) =
      (fun c : Chunk => decide (c.id = a)) := rfl
  rw [hp, Option.map_map]
  rfl

theorem buildNetwork_canon (g : Graph) (p inf : ℚ) :
    buildNetwork (canon g) p inf = buildNetwork g p inf := by
  rw [buildNetwork, buildNetwork]
  simp only [canon, List.length_map, List.enum_map, List.foldl_map]
  have hstep : (fun (d : Dinic) (q : ℕ × Chunk) =>
      (fun d (q : ℕ × Chunk) =>
        if 0 ≤ q.2.weight - p then addEdge d 0 (q.1 + 2) (q.2.weight - p)
        else addEdge d (q.1 + 2) 1 (-(q.2.weight - p))) d
        (Prod.map id canonChunk q)) =
      (fun (d : Dinic) (q : ℕ × Chunk) =>
        if 0 ≤ q.2.weight - p then addEdge d 0 (q.1 + 2) (q.2.weight - p)
        else addEdge d (q.1 + 2) 1 (-(q.2.weight - p))) := by
    funext d q
    rcases q with ⟨i, c⟩
    rfl
  have hedge : (fun (d : Dinic) (e : Edge) =>
      (fun d (e : Edge) =>
        if (g.chunks.map canonChunk).findIdx (fun c => c.id = e.fromId) <
              g.chunks.length ∧
            (g.chunks.map canonChunk).findIdx (fun c => c.id = e.toId) <
              g.chunks.length then
          addEdge d ((g.chunks.map canonChunk).findIdx (fun c => c.id = e.fromId) + 2)
            ((g.chunks.map canonChunk).findIdx (fun c => c.id = e.toId) + 2) inf
        else d) d (canonEdge e)) =
      (fun (d : Dinic) (e : Edge) =>
        if g.chunks.findIdx (fun c => c.id = e.fromId) < g.chunks.length ∧
            g.chunks.findIdx (fun c => c.id = e.toId) < g.chunks.length then
          addEdge d (g.chunks.findIdx (fun c => c.id = e.fromId) + 2)
            (g.chunks.findIdx (fun c => c.id = e.toId) + 2) inf
        else d) := by
    funext d e
    simp only [findIdx_map]
    rfl
  rw [hstep, hedge]

theorem buildClosure_canon (g : Graph) (p : ℚ) :
    buildClosure (canon g) p = buildClosure g p := by
  have hinf : infCap (canon g) p = infCap g p := by
    rw [infCap, infCap, canon]
    simp only [List.map_map]
    rfl
  have hreach : reachSet (canon g) p = reachSet g p := by
    rw [reachSet, reachSet, hinf, buildNetwork_canon]
  have hcl : closureIdsOf (canon g) p = closureIdsOf g p := by
    rw [closureIdsOf, closureIdsOf, hreach, canon]
    simp only [List.enum_map, List.foldl_map]
    have hfun : (fun (x : List ChunkId) (y : ℕ × Chunk) =>
        if (reachSet g p).getD ((Prod.map id canonChunk y).1 + 2) false = true then
          x ++ [(Prod.map id canonChunk y).2.id] else x) =
        (fun acc (q : ℕ × Chunk) =>
          if (reachSet g p).getD (q.1 + 2) false = true then acc ++ [q.2.id]
          else acc) := by
      funext x y
      rcases y with ⟨i, c⟩
      rfl
    rw [hfun]
  have hlen : (canon g).chunks.length = g.chunks.length := by
    rw [canon]; exact List.length_map _ _
  simp only [buildClosure, hcl, hlen, weightOf_canon]

theorem maximumWeightClosure_canon (g : Graph) :
    maximumWeightClosure (canon g) = maximumWeightClosure g := by
  rw [maximumWeightClosure, maximumWeightClosure, buildClosure_canon]

theorem isDependency_canon (g : Graph) (cid : ChunkId) (keep : List ChunkId) :
    isDependency (canon g) cid keep = isDependency g cid keep := by
  rw [isDependency, isDependency, canon]
  simp only [List.filter_map, List.map_map]
  rfl

theorem removeLoop_congr (g1 g2 : Graph) (k : ℤ)
    (hdep : ∀ cid keep, isDependency g1 cid keep = isDependency g2 cid keep) :
    ∀ (rem keep : List ChunkId), removeLoop g1 k rem keep = removeLoop g2 k rem keep := by
  intro rem
  induction rem with
  | nil => intro keep; rfl
  | cons cid t ih => intro keep; simp only [removeLoop, hdep, ih]

theorem enforceSizeLimit_canon (g : Graph) (ids : List ChunkId) (k : ℤ) :
    enforceSizeLimit (canon g) ids k = enforceSizeLimit g ids k := by
  have hek : enforceKeep (canon g) ids k = enforceKeep g ids k := by
    rw [enforceKeep, enforceKeep, weightOf_canon]
    exact removeLoop_congr _ _ k (fun cid keep => isDependency_canon g cid keep) _ _
  simp only [enforceSizeLimit, hek, weightOf_canon]

theorem searchBest_canon (g : Graph) (k : ℤ) :
    searchBest (canon g) k = searchBest g k := by
  have hw : (canon g).chunks.map Chunk.weight = g.chunks.map Chunk.weight := by
    rw [canon]
    simp only [List.map_map]
    rfl
  rw [searchBest, searchBest, hw,
    searchLoop_congr (canon g) g k (fun p => buildClosure_canon g p),
    maximumWeightClosure_canon]

theorem solveClosureBySize_canon (g : Graph) (k : ℤ) :
    solveClosureBySize (canon g) k = solveClosureBySize g k := by
  have hlen : (canon g).chunks.length = g.chunks.length := by
    rw [canon]; exact List.length_map _ _
  simp only [solveClosureBySize, hlen, maximumWeightClosure_canon, searchBest_canon,
    enforceSizeLimit_canon, weightOf_canon]

/-- **C8**: determinism / extensionality.  The solver's outputs, including the
order of ids in the closure list, are a function of the chunk (id, weight)
sequence (in `Record` insertion order) and the edge (from, to) sequence
alone: two graphs agreeing on those — whatever their descriptive fields —
give identical results, for both entry points.  In the model the two entry
points are pure functions, so byte-identical inputs trivially give
byte-identical outputs; this theorem states the substantive half. -/
theorem C8_deterministic (g1 g2 : Graph) (k : ℤ)
    (hc : g1.chunks.map (fun c => (c.id, c.weight)) =
      g2.chunks.map (fun c => (c.id, c.weight)))
    (he : g1.edges.map (fun e => (e.fromId, e.toId)) =
      g2.edges.map (fun e => (e.fromId, e.toId))) :
    maximumWeightClosure g1 = maximumWeightClosure g2 ∧
      solveClosureBySize g1 k = solveClosureBySize g2 k := by
  have hcanon : canon g1 = canon g2 := by
    rw [canon, canon]
    have h1 : ∀ gg : Graph, gg.chunks.map canonChunk =
        (gg.chunks.map (fun c => (c.id, c.weight))).map
          (fun q : ChunkId × ℚ => (⟨q.1, q.2, ""⟩ : Chunk)) := by
      intro gg; rw [List.map_map]; rfl
    have h2 : ∀ gg : Graph, gg.edges.map canonEdge =
        (gg.edges.map (fun e => (e.fromId, e.toId))).map
          (fun q : ChunkId × ChunkId => (⟨q.1, q.2, none⟩ : Edge)) := by
      intro gg; rw [List.map_map]; rfl
    rw [h1, h1, h2, h2, hc, he]
  constructor
  · rw [← maximumWeightClosure_canon g1, hcanon, maximumWeightClosure_canon]
  · rw [← solveClosureBySize_canon g1 k, hcanon, solveClosureBySize_canon]

/-- **C8, witness instance**: `exampleA` with different titles and an edge
rationale gives identical outputs. -/
theorem C8_deterministic_witness :
    maximumWeightClosure ⟨[⟨"A", 10, "t"⟩, ⟨"B", -3, "u"⟩], [⟨"A", "B", some "r"⟩]⟩ =
        maximumWeightClosure exampleA ∧
      solveClosureBySize ⟨[⟨"A", 10, "t"⟩, ⟨"B", -3, "u"⟩], [⟨"A", "B", some "r"⟩]⟩ 1 =
        solveClosureBySize exampleA 1 :=
  C8_deterministic ⟨[⟨"A", 10, "t"⟩, ⟨"B", -3, "u"⟩], [⟨"A", "B", some "r"⟩]⟩
    exampleA 1 (by decide) (by decide)

/-! ### Anatomy of the graphs built by `buildClosure` when there are no
dependency edges -/

theorem getD_set_self' (l : List (List DinicEdge)) (i : ℕ) (x : List DinicEdge)
    (h : i < l.length) : (l.set i x).getD i [] = x := by
  simp [List.getD_eq_getElem?_getD, List.getElem?_set_self h]

theorem getD_set_ne' (l : List (List DinicEdge)) (i j : ℕ) (x : List DinicEdge)
    (h : i ≠ j) : (l.set i x).getD j [] = l.getD j [] := by
  simp [List.getD_eq_getElem?_getD, List.getElem?_set_ne h]

theorem addEdge_spec (d : Dinic) (u v : ℕ) (cap : ℚ)
    (hu : u < d.adj.length) (hv : v < d.adj.length) (huv : u ≠ v) :
    (addEdge d u v cap).adj.getD u [] =
        d.adj.getD u [] ++ [⟨v, (d.adj.getD v []).length, cap⟩] ∧
      (addEdge d u v cap).adj.getD v [] =
        d.adj.getD v [] ++ [⟨u, (d.adj.getD u []).length, 0⟩] ∧
      (∀ w, w ≠ u → w ≠ v → (addEdge d u v cap).adj.getD w [] = d.adj.getD w []) ∧
      (addEdge d u v cap).adj.length = d.adj.length ∧
      (addEdge d u v cap).size = d.size := by
  rw [addEdge]
  refine ⟨?_, ?_, ?_, ?_, rfl⟩
  · rw [getD_set_ne' _ v u _ (Ne.symm huv), getD_set_self' _ u _ hu]
  · rw [getD_set_self' _ v _ (by simpa using hv), getD_set_ne' _ u v _ huv]
  · intro w hwu hwv
    rw [getD_set_ne' _ v w _ (Ne.symm hwv), getD_set_ne' _ u w _ (Ne.symm hwu)]
  · simp

/-- Invariant of the chunk-edge construction fold of `buildNetwork`, when no
dependency edges will be added: after the chunks with indices `< m` have been
processed, node 0 (the source) carries exactly one forward edge per
nonnegative-profit chunk — capacity `weight − penalty`, target `index + 2` —
every such chunk node carries only its zero-capacity reverse edge, and the
not-yet-processed node rows are empty. -/
theorem noEdgeFold_spec (chunks : List Chunk) (p : ℚ) :
    ∀ (l : List Chunk) (m : ℕ) (d : Dinic),
      (∀ j : ℕ, l[j]? = chunks[m + j]?) →
      m + l.length = chunks.length →
      d.size = chunks.length + 2 →
      d.adj.length = chunks.length + 2 →
      (∀ j, m + 2 ≤ j → d.adj.getD j [] = []) →
      (d.adj.getD 0 []).length ≤ m →
      (∀ e ∈ d.adj.getD 0 [], ∃ i c, i < m ∧ chunks[i]? = some c ∧
        0 ≤ c.weight - p ∧ e.«to» = i + 2 ∧ e.cap = c.weight - p) →
      (∀ i c, i < m → chunks[i]? = some c → 0 ≤ c.weight - p →
        ∃ e ∈ d.adj.getD 0 [], e.«to» = i + 2 ∧ e.cap = c.weight - p) →
      (∀ i c, i < m → chunks[i]? = some c → 0 ≤ c.weight - p →
        ∀ e ∈ d.adj.getD (i + 2) [], e.cap ≤ eps) →
      (let d' := (List.enumFrom m l).foldl
        (fun d q =>
          if 0 ≤ q.2.weight - p then addEdge d 0 (q.1 + 2) (q.2.weight - p)
          else addEdge d (q.1 + 2) 1 (-(q.2.weight - p))) d
       d'.size = chunks.length + 2 ∧
       d'.adj.length = chunks.length + 2 ∧
       (d'.adj.getD 0 []).length ≤ chunks.length ∧
       (∀ e ∈ d'.adj.getD 0 [], ∃ i c, i < chunks.length ∧ chunks[i]? = some c ∧
         0 ≤ c.weight - p ∧ e.«to» = i + 2 ∧ e.cap = c.weight - p) ∧
       (∀ i c, chunks[i]? = some c → 0 ≤ c.weight - p →
         ∃ e ∈ d'.adj.getD 0 [], e.«to» = i + 2 ∧ e.cap = c.weight - p) ∧
       (∀ i c, chunks[i]? = some c → 0 ≤ c.weight - p →
         ∀ e ∈ d'.adj.getD (i + 2) [], e.cap ≤ eps)) := by
  intro l
  induction l with
  | nil =>
    intro m d hidx hlen hsz hadj hfresh hlen0 h3 h4 h5
    simp only [List.enumFrom, List.foldl_nil]
    have hm : m = chunks.length := by simpa using hlen
    subst hm
    refine ⟨hsz, hadj, hlen0, h3, fun i c hc hw => h4 i c ?_ hc hw,
      fun i c hc hw => h5 i c ?_ hc hw⟩
    · exact (List.getElem?_eq_some_iff.1 hc).1
    · exact (List.getElem?_eq_some_iff.1 hc).1
  | cons c0 t ih =>
    intro m d hidx hlen hsz hadj hfresh hlen0 h3 h4 h5
    have hc0 : chunks[m]? = some c0 := by
      have := hidx 0
      simpa using this.symm
    have hmlt : m < chunks.length := (List.getElem?_eq_some_iff.1 hc0).1
    simp only [List.enumFrom, List.foldl_cons]
    by_cases hw : 0 ≤ c0.weight - p
    · rw [if_pos hw]
      have hu : 0 < d.adj.length := by omega
      have hv : m + 2 < d.adj.length := by omega
      have huv : (0 : ℕ) ≠ m + 2 := by omega
      obtain ⟨ha, hb, hc, hd, hsz'⟩ := addEdge_spec d 0 (m + 2) (c0.weight - p) hu hv huv
      have hfresh0 : d.adj.getD (m + 2) [] = [] := hfresh (m + 2) (by omega)
      apply ih (m + 1)
      · intro j
        have := hidx (j + 1)
        simpa [Nat.add_comm, Nat.add_assoc, Nat.add_left_comm] using this
      · simpa [Nat.add_comm, Nat.add_assoc, Nat.add_left_comm] using hlen
      · rw [hsz']; exact hsz
      · rw [hd]; exact hadj
      · intro j hj
        rw [hc j (by omega) (by omega)]
        exact hfresh j (by omega)
      · rw [ha]
        simp only [List.length_append, List.length_cons, List.length_nil]
        omega
      · intro e he
        rw [ha] at he
        rcases List.mem_append.1 he with he | he
        · rcases h3 e he with ⟨i, c, hi, hci, hwi, hti, hcapi⟩
          exact ⟨i, c, by omega, hci, hwi, hti, hcapi⟩
        · rcases List.mem_singleton.1 he with rfl
          exact ⟨m, c0, by omega, hc0, hw, rfl, rfl⟩
      · intro i c hi hci hwi
        rcases Nat.lt_succ_iff_lt_or_eq.1 hi with hi' | rfl
        · rcases h4 i c hi' hci hwi with ⟨e, he, ht, hcap⟩
          exact ⟨e, by rw [ha]; exact List.mem_append.2 (Or.inl he), ht, hcap⟩
        · refine ⟨⟨i + 2, (d.adj.getD (i + 2) []).length, c0.weight - p⟩, ?_, rfl, ?_⟩
          · rw [ha]
            exact List.mem_append.2 (Or.inr (List.mem_singleton.2 rfl))
          · have : c = c0 := by
              rw [hc0] at hci
              exact (Option.some.inj hci).symm
            rw [this]
      · intro i c hi hci hwi e he
        rcases Nat.lt_succ_iff_lt_or_eq.1 hi with hi' | rfl
        · rw [hc (i + 2) (by omega) (by omega)] at he
          exact h5 i c hi' hci hwi e he
        · rw [hb, hfresh0] at he
          rcases List.mem_singleton.1 (by simpa using he) with rfl
          simp [eps]
    · rw [if_neg hw]
      have hu : m + 2 < d.adj.length := by omega
      have hv : 1 < d.adj.length := by omega
      have huv : m + 2 ≠ 1 := by omega
      obtain ⟨ha, hb, hc, hd, hsz'⟩ := addEdge_spec d (m + 2) 1 (-(c0.weight - p)) hu hv huv
      have hfresh0 : d.adj.getD (m + 2) [] = [] := hfresh (m + 2) (by omega)
      apply ih (m + 1)
      · intro j
        have := hidx (j + 1)
        simpa [Nat.add_comm, Nat.add_assoc, Nat.add_left_comm] using this
      · simpa [Nat.add_comm, Nat.add_assoc, Nat.add_left_comm] using hlen
      · rw [hsz']; exact hsz
      · rw [hd]; exact hadj
      · intro j hj
        rw [hc j (by omega) (by omega)]
        exact hfresh j (by omega)
      · rw [hc 0 (by omega) (by omega)]
        omega
      · intro e he
        rw [hc 0 (by omega) (by omega)] at he
        rcases h3 e he with ⟨i, c, hi, hci, hwi, hti, hcapi⟩
        exact ⟨i, c, by omega, hci, hwi, hti, hcapi⟩
      · intro i c hi hci hwi
        rcases Nat.lt_succ_iff_lt_or_eq.1 hi with hi' | rfl
        · rcases h4 i c hi' hci hwi with ⟨e, he, ht, hcap⟩
          refine ⟨e, ?_, ht, hcap⟩
          rw [hc 0 (by omega) (by omega)]
          exact he
        · exfalso
          rw [hc0] at hci
          exact hw ((Option.some.inj hci) ▸ hwi)
      · intro i c hi hci hwi e he
        rcases Nat.lt_succ_iff_lt_or_eq.1 hi with hi' | rfl
        · rw [hc (i + 2) (by omega) (by omega)] at he
          exact h5 i c hi' hci hwi e he
        · exfalso
          rw [hc0] at hci
          exact hw ((Option.some.inj hci) ▸ hwi)

theorem getD_set_ne_g {α : Type} (l : List α) (i j : ℕ) (x d : α) (h : i ≠ j) :
    (l.set i x).getD j d = l.getD j d := by
  simp [List.getD_eq_getElem?_getD, List.getElem?_set_ne h]

theorem getD_set_self_g {α : Type} (l : List α) (i : ℕ) (x d : α) (h : i < l.length) :
    (l.set i x).getD i d = x := by
  simp [List.getD_eq_getElem?_getD, List.getElem?_set_self h]

/-- A node all of whose residual edges are at or below the threshold
contributes nothing to the BFS. -/
theorem bfsStep_inert (adj : List (List DinicEdge)) (lv : List Int) (v : ℕ)
    (h : ∀ e ∈ adj.getD v [], e.cap ≤ eps) : bfsStep adj lv v = (lv, []) := by
  rw [bfsStep]
  have hgen : ∀ (l : List DinicEdge), (∀ e ∈ l, e.cap ≤ eps) →
      l.foldl (fun st e =>
        if eps < e.cap ∧ st.1.getD e.«to» (-1) < 0 then
          (st.1.set e.«to» (st.1.getD v (-1) + 1), st.2 ++ [e.«to»])
        else st) (lv, []) = (lv, []) := by
    intro l
    induction l with
    | nil => intro _; rfl
    | cons a t ih =>
      intro hl
      rw [List.foldl_cons,
        if_neg (fun hcond => absurd hcond.1 (not_lt.2 (hl a (List.mem_cons_self a t)))),
        ih (fun e he => hl e (List.mem_cons_of_mem a he))]
  exact hgen _ h

/-- What one BFS scan can touch: positions other than the scanned node's edge
targets keep their level, and every enqueued node is such a target. -/
theorem bfsStep_spec (adj : List (List DinicEdge)) (lv : List Int) (v : ℕ) :
    (∀ t : ℕ, (∀ e ∈ adj.getD v [], e.«to» ≠ t) →
        (bfsStep adj lv v).1.getD t (-1) = lv.getD t (-1)) ∧
      ∀ x ∈ (bfsStep adj lv v).2, ∃ e ∈ adj.getD v [], e.«to» = x := by
  rw [bfsStep]
  have hgen : ∀ (l : List DinicEdge) (st : List Int × List ℕ),
      (∀ t : ℕ, (∀ e ∈ l, e.«to» ≠ t) →
          (l.foldl (fun st e =>
            if eps < e.cap ∧ st.1.getD e.«to» (-1) < 0 then
              (st.1.set e.«to» (st.1.getD v (-1) + 1), st.2 ++ [e.«to»])
            else st) st).1.getD t (-1) = st.1.getD t (-1)) ∧
        ∀ x ∈ (l.foldl (fun st e =>
            if eps < e.cap ∧ st.1.getD e.«to» (-1) < 0 then
              (st.1.set e.«to» (st.1.getD v (-1) + 1), st.2 ++ [e.«to»])
            else st) st).2, (∃ e ∈ l, e.«to» = x) ∨ x ∈ st.2 := by
    intro l
    induction l with
    | nil => exact fun st => ⟨fun t _ => rfl, fun x hx => Or.inr hx⟩
    | cons a t ih =>
      intro st
      rw [List.foldl_cons]
      by_cases hcond : eps < a.cap ∧ st.1.getD a.«to» (-1) < 0
      · rw [if_pos hcond]
        constructor
        · intro u hu
          have h1 := (ih (st.1.set a.«to» (st.1.getD v (-1) + 1),
            st.2 ++ [a.«to»])).1 u (fun e he => hu e (List.mem_cons_of_mem a he))
          rw [h1]
          exact getD_set_ne_g _ _ _ _ _
            (fun h => hu a (List.mem_cons_self a t) h)
        · intro x hx
          rcases (ih (st.1.set a.«to» (st.1.getD v (-1) + 1),
              st.2 ++ [a.«to»])).2 x hx with h | h
          · rcases h with ⟨e, he, ht⟩
            exact Or.inl ⟨e, List.mem_cons_of_mem a he, ht⟩
          · rcases List.mem_append.1 h with h | h
            · exact Or.inr h
            · exact Or.inl ⟨a, List.mem_cons_self a t, (List.mem_singleton.1 h).symm⟩
      · rw [if_neg hcond]
        refine ⟨fun u hu => (ih st).1 u (fun e he => hu e (List.mem_cons_of_mem a he)),
          fun x hx => ?_⟩
        rcases (ih st).2 x hx with h | h
        · rcases h with ⟨e, he, ht⟩
          exact Or.inl ⟨e, List.mem_cons_of_mem a he, ht⟩
        · exact Or.inr h
  refine ⟨fun t ht => (hgen _ (lv, [])).1 t ht, fun x hx => ?_⟩
  rcases (hgen _ (lv, [])).2 x hx with h | h
  · exact h
  · cases h

/-- If every edge out of the source leads to an inert node other than the
sink, the sink's level stays unassigned however long the BFS runs. -/
theorem bfsGo_stuck (adj : List (List DinicEdge))
    (hrow0 : ∀ e ∈ adj.getD 0 [], e.«to» ≠ 1 ∧
      ∀ e' ∈ adj.getD e.«to» [], e'.cap ≤ eps) :
    ∀ (fuel : ℕ) (lv : List Int) (queue : List ℕ),
      lv.getD 1 (-1) < 0 →
      (∀ v ∈ queue, v = 0 ∨ ∀ e ∈ adj.getD v [], e.cap ≤ eps) →
      (bfsGo adj fuel lv queue).getD 1 (-1) < 0 := by
  intro fuel
  induction fuel with
  | zero => intro lv queue h _; exact h
  | succ f ih =>
    intro lv queue h hq
    match queue with
    | [] => exact h
    | v :: q =>
      rcases hq v (List.mem_cons_self v q) with rfl | hv
      · rw [bfsGo]
        refine ih _ _ ?_ ?_
        · rw [(bfsStep_spec adj lv 0).1 1 (fun e he => (hrow0 e he).1)]
          exact h
        · intro u hu
          rcases List.mem_append.1 hu with hu | hu
          · exact hq u (List.mem_cons_of_mem 0 hu)
          · rcases (bfsStep_spec adj lv 0).2 u hu with ⟨e, he, rfl⟩
            exact Or.inr (hrow0 e he).2
      · rw [bfsGo, bfsStep_inert adj lv v hv]
        simp only [List.append_nil]
        exact ih _ _ h (fun u hu => hq u (List.mem_cons_of_mem v hu))

/-- When the very first BFS fails, `maxFlow` does nothing: flow 0, state
unchanged, clean exit. -/
theorem maxFlow_of_bfs_fail (d : Dinic) (h : (bfsRun d 0).getD 1 (-1) < 0) :
    maxFlow d 0 1 = (0, d, true) := by
  rw [maxFlow, phaseLoop, if_neg (by omega)]

/-- Inert stack members never change the visited set. -/
theorem reachStep_inert (adj : List (List DinicEdge)) (seen : List Bool) (v : ℕ)
    (h : ∀ e ∈ adj.getD v [], e.cap ≤ eps) : reachStep adj seen v = (seen, []) := by
  rw [reachStep]
  have hgen : ∀ (l : List DinicEdge), (∀ e ∈ l, e.cap ≤ eps) →
      l.foldl (fun st e =>
        if eps < e.cap ∧ st.1.getD e.«to» false = false then
          (st.1.set e.«to» true, e.«to» :: st.2)
        else st) (seen, []) = (seen, []) := by
    intro l
    induction l with
    | nil => intro _; rfl
    | cons a t ih =>
      intro hl
      rw [List.foldl_cons,
        if_neg (fun hcond => absurd hcond.1 (not_lt.2 (hl a (List.mem_cons_self a t)))),
        ih (fun e he => hl e (List.mem_cons_of_mem a he))]
  exact hgen _ h

theorem reachGo_inert (adj : List (List DinicEdge)) (seen : List Bool) :
    ∀ (fuel : ℕ) (stk : List ℕ),
      (∀ v ∈ stk, ∀ e ∈ adj.getD v [], e.cap ≤ eps) →
      reachGo adj fuel seen stk = seen := by
  intro fuel
  induction fuel generalizing seen with
  | zero => intro stk _; rfl
  | succ f ih =>
    intro stk hstk
    match stk with
    | [] => rfl
    | v :: q =>
      rw [reachGo, reachStep_inert adj seen v (hstk v (List.mem_cons_self v q))]
      simp only [List.nil_append]
      exact ih _ _ (fun u hu => hstk u (List.mem_cons_of_mem v hu))

/-- Exact effect of one `reachable` scan: a position is marked afterwards iff
it was marked before or it is an in-range target of an above-threshold edge
of the scanned node; every pushed node is such a target. -/
theorem reachStep_spec (adj : List (List DinicEdge)) (seen : List Bool) (v : ℕ) :
    (∀ t : ℕ, ((reachStep adj seen v).1.getD t false = true ↔
        seen.getD t false = true ∨
          (t < seen.length ∧ ∃ e ∈ adj.getD v [], e.«to» = t ∧ eps < e.cap))) ∧
      (∀ x ∈ (reachStep adj seen v).2, ∃ e ∈ adj.getD v [], e.«to» = x ∧ eps < e.cap) ∧
      (reachStep adj seen v).1.length = seen.length := by
  rw [reachStep]
  have hgen : ∀ (l : List DinicEdge) (st : List Bool × List ℕ),
      (∀ t : ℕ, ((l.foldl (fun st e =>
          if eps < e.cap ∧ st.1.getD e.«to» false = false then
            (st.1.set e.«to» true, e.«to» :: st.2)
          else st) st).1.getD t false = true ↔
        st.1.getD t false = true ∨
          (t < st.1.length ∧ ∃ e ∈ l, e.«to» = t ∧ eps < e.cap))) ∧
      (∀ x ∈ (l.foldl (fun st e =>
          if eps < e.cap ∧ st.1.getD e.«to» false = false then
            (st.1.set e.«to» true, e.«to» :: st.2)
          else st) st).2, (∃ e ∈ l, e.«to» = x ∧ eps < e.cap) ∨ x ∈ st.2) ∧
      (l.foldl (fun st e =>
          if eps < e.cap ∧ st.1.getD e.«to» false = false then
            (st.1.set e.«to» true, e.«to» :: st.2)
          else st) st).1.length = st.1.length := by
    intro l
    induction l with
    | nil =>
      intro st
      refine ⟨fun t => ?_, fun x hx => Or.inr hx, rfl⟩
      simp
    | cons a t ih =>
      intro st
      rw [List.foldl_cons]
      by_cases hcond : eps < a.cap ∧ st.1.getD a.«to» false = false
      · rw [if_pos hcond]
        refine ⟨fun u => ?_, fun x hx => ?_, ?_⟩
        · rw [(ih (st.1.set a.«to» true, a.«to» :: st.2)).1 u]
          simp only [List.length_set]
          by_cases hau : a.«to» = u
          · subst hau
            have hmark : (st.1.set a.«to» true).getD a.«to» false = true ↔
                a.«to» < st.1.length := by
              constructor
              · intro h
                by_contra hlen
                rw [List.getD_eq_getElem?_getD,
                  List.getElem?_eq_none (by simp only [List.length_set]; omega),
                  Option.getD_none] at h
                cases h
              · intro hlen
                rw [getD_set_self_g _ _ _ _ hlen]
            constructor
            · rintro (h | ⟨hu, e, he, ht, hc⟩)
              · exact Or.inr ⟨hmark.1 h, a, List.mem_cons_self a t, rfl, hcond.1⟩
              · exact Or.inr ⟨hu, e, List.mem_cons_of_mem a he, ht, hc⟩
            · rintro (h | ⟨hu, _, _, _, _⟩)
              · rw [hcond.2] at h
                cases h
              · exact Or.inl (hmark.2 hu)
          · rw [getD_set_ne_g _ _ _ _ _ hau]
            constructor
            · rintro (h | ⟨hu, e, he, ht, hc⟩)
              · exact Or.inl h
              · exact Or.inr ⟨hu, e, List.mem_cons_of_mem a he, ht, hc⟩
            · rintro (h | ⟨hu, e, he, ht, hc⟩)
              · exact Or.inl h
              · rcases List.mem_cons.1 he with rfl | he
                · exact absurd ht hau
                · exact Or.inr ⟨hu, e, he, ht, hc⟩
        · rcases (ih (st.1.set a.«to» true, a.«to» :: st.2)).2.1 x hx with h | h
          · rcases h with ⟨e, he, ht, hc⟩
            exact Or.inl ⟨e, List.mem_cons_of_mem a he, ht, hc⟩
          · rcases List.mem_cons.1 h with rfl | h
            · exact Or.inl ⟨a, List.mem_cons_self a t, rfl, hcond.1⟩
            · exact Or.inr h
        · rw [(ih (st.1.set a.«to» true, a.«to» :: st.2)).2.2]
          exact List.length_set _ _ _
      · rw [if_neg hcond]
        refine ⟨fun u => ?_, fun x hx => ?_, (ih st).2.2⟩
        · rw [(ih st).1 u]
          constructor
          · rintro (h | ⟨hu, e, he, ht, hc⟩)
            · exact Or.inl h
            · exact Or.inr ⟨hu, e, List.mem_cons_of_mem a he, ht, hc⟩
          · rintro (h | ⟨hu, e, he, ht, hc⟩)
            · exact Or.inl h
            · rcases List.mem_cons.1 he with rfl | he
              · have h2 : ¬ st.1.getD e.«to» false = false := fun hf => hcond ⟨hc, hf⟩
                left
                rw [← ht]
                rcases Bool.eq_false_or_eq_true (st.1.getD e.«to» false) with h0 | h0
                · exact h0
                · exact absurd h0 h2
              · exact Or.inr ⟨hu, e, he, ht, hc⟩
        · rcases (ih st).2.1 x hx with h | h
          · rcases h with ⟨e, he, ht, hc⟩
            exact Or.inl ⟨e, List.mem_cons_of_mem a he, ht, hc⟩
          · exact Or.inr h
  refine ⟨fun t => ?_, fun x hx => ?_, (hgen _ (seen, [])).2.2⟩
  · exact (hgen _ (seen, [])).1 t
  · rcases (hgen _ (seen, [])).2.1 x hx with h | h
    · exact h
    · cases h

theorem getD_replicate_g {α : Type} (n j : ℕ) (a : α) :
    (List.replicate n a).getD j a = a := by
  rw [List.getD_eq_getElem?_getD, List.getElem?_replicate]
  split <;> rfl

/-- **C3 (amended)**: with no dependency edges, the closure returned by
`maximumWeightClosure` is exactly the list of ids of the chunks whose weight
strictly exceeds the `1e-9` capacity threshold (in chunk order).  A chunk of
weight `w ∈ [0, 1e-9]` gets a source edge of capacity `w`, which fails the
strict `> 1e-9` residual test, so it is never visited. -/
theorem C3_no_edges_closure (g : Graph) (he : g.edges = []) :
    (maximumWeightClosure g).closure =
      (g.chunks.filter (fun c => decide (eps < c.weight))).map Chunk.id := by
  have hd1 : buildNetwork g 0 (infCap g 0) =
      (List.enumFrom 0 g.chunks).foldl
        (fun d q =>
          if 0 ≤ q.2.weight - 0 then addEdge d 0 (q.1 + 2) (q.2.weight - 0)
          else addEdge d (q.1 + 2) 1 (-(q.2.weight - 0)))
        (mkDinic (g.chunks.length + 2)) := by
    rw [buildNetwork, he]
    rfl
  obtain ⟨hsz, hadj, hlen0, h3, h4, h5⟩ :=
    noEdgeFold_spec g.chunks 0 g.chunks 0 (mkDinic (g.chunks.length + 2))
      (fun j => by simp)
      (by simp)
      rfl
      (by simpa [mkDinic] using rfl)
      (fun j _ => by
        simp only [mkDinic]
        exact getD_replicate_g _ _ _)
      (by
        simp only [mkDinic]
        rw [getD_replicate_g]
        simp)
      (fun e hee => absurd hee (by
        simp only [mkDinic]
        rw [getD_replicate_g]
        simp))
      (fun i c hi => absurd hi (by omega))
      (fun i c hi => absurd hi (by omega))
  rw [← hd1] at hsz hadj hlen0 h3 h4 h5
  set d1 := buildNetwork g 0 (infCap g 0) with hd1def
  -- the first BFS fails, so max-flow leaves the network untouched
  have hbfs : (bfsRun d1 0).getD 1 (-1) < 0 := by
    rw [bfsRun]
    apply bfsGo_stuck
    · intro e hee
      rcases h3 e hee with ⟨i, c, hi, hci, hwi, hti, hcapi⟩
      refine ⟨by omega, ?_⟩
      intro e' he'
      rw [hti] at he'
      exact h5 i c hci hwi e' he'
    · rw [getD_set_ne_g _ _ _ _ _ (by omega)]
      have := getD_replicate_g d1.size 1 (-1 : Int)
      omega
    · intro v hv
      rcases List.mem_singleton.1 hv with rfl
      exact Or.inl rfl
  have hmf : maxFlow d1 0 1 = (0, d1, true) := maxFlow_of_bfs_fail d1 hbfs
  have hreach : reachSet g 0 = reachable d1 0 := by
    rw [reachSet, ← hd1def, hmf]
  -- one scan of the source, then nothing
  have hGood : ∀ x ∈ (reachStep d1.adj ((List.replicate d1.size false).set 0 true) 0).2,
      ∀ e ∈ d1.adj.getD x [], e.cap ≤ eps := by
    intro x hx
    rcases (reachStep_spec d1.adj _ 0).2.1 x hx with ⟨e, hee, hte, hce⟩
    rcases h3 e hee with ⟨i, c, hi, hci, hwi, hti, hcapi⟩
    rw [← hte, hti]
    exact h5 i c hci hwi
  have hreach2 : reachable d1 0 =
      (reachStep d1.adj ((List.replicate d1.size false).set 0 true) 0).1 := by
    rw [reachable, reachGo]
    rw [List.append_nil]
    exact reachGo_inert d1.adj _ _ _ hGood
  -- the characterization of the visited chunk nodes
  have hchar : ∀ (i : ℕ) (c : Chunk), g.chunks[i]? = some c →
      ((reachSet g 0).getD (i + 2) false = true ↔ eps < c.weight) := by
    intro i c hci
    have hilt : i < g.chunks.length := (List.getElem?_eq_some_iff.1 hci).1
    rw [hreach, hreach2, (reachStep_spec d1.adj _ 0).1 (i + 2)]
    have hseen : ((List.replicate d1.size false).set 0 true).getD (i + 2) false = false := by
      rw [getD_set_ne_g _ _ _ _ _ (by omega)]
      exact getD_replicate_g _ _ _
    have hseenlen : ((List.replicate d1.size false).set 0 true).length = d1.size := by
      simp
    rw [hseen, hseenlen, hsz]
    constructor
    · rintro (h | ⟨_, e, hee, hte, hce⟩)
      · cases h
      · rcases h3 e hee with ⟨i', c', hi', hci', hwi', hti', hcapi'⟩
        have hii : i' = i := by omega
        subst hii
        rw [hci] at hci'
        rcases Option.some.inj hci' with rfl
        rw [hcapi'] at hce
        simpa using hce
    · intro hc
      have hw0 : (0 : ℚ) ≤ c.weight - 0 := by
        have : (0 : ℚ) < eps := by rw [eps]; norm_num
        simp only [sub_zero]
        linarith
      rcases h4 i c hci hw0 with ⟨e, hee, hte, hcape⟩
      refine Or.inr ⟨by omega, e, hee, hte, ?_⟩
      rw [hcape]
      simpa using hc
  -- assemble the closure list
  rw [maximumWeightClosure, buildClosure_closure_eq, closureIdsOf_eq_filter]
  have hfe : (g.chunks.enum.filter
      (fun q => decide ((reachSet g 0).getD (q.1 + 2) false = true))) =
      (g.chunks.enum.filter (fun q => decide (eps < q.2.weight))) := by
    apply List.filter_congr
    intro q hq
    have hci : g.chunks[q.1]? = some q.2 := List.mem_enum_iff_getElem?.1 hq
    rw [decide_eq_decide]
    exact hchar q.1 q.2 hci
  rw [hfe]
  have h8 : (g.chunks.enum.filter (fun q => decide (eps < q.2.weight))).map
      (fun q : ℕ × Chunk => q.2.id) =
      ((g.chunks.enum.map Prod.snd).filter (fun c => decide (eps < c.weight))).map
        Chunk.id := by
    rw [List.filter_map, List.map_map]
    rfl
  rw [h8, List.enum_map_snd]

/-- **C3, witness instance**: a no-edge graph with weights above, at, and
below the threshold. -/
theorem C3_no_edges_closure_witness :
    (⟨[⟨"A", 5, ""⟩, ⟨"B", 0, ""⟩, ⟨"C", -2, ""⟩], []⟩ : Graph).edges = [] ∧
      (maximumWeightClosure ⟨[⟨"A", 5, ""⟩, ⟨"B", 0, ""⟩, ⟨"C", -2, ""⟩], []⟩).closure =
        ["A"] := by
  refine ⟨rfl, ?_⟩
  rw [C3_no_edges_closure ⟨[⟨"A", 5, ""⟩, ⟨"B", 0, ""⟩, ⟨"C", -2, ""⟩], []⟩ rfl]
  with_unfolding_all decide

/-! ### Capacity bookkeeping of the flow engine (towards closedness, C1) -/

theorem capOf_updCap (adj : List (List DinicEdge)) (u i : ℕ) (f : ℚ → ℚ)
    (u' i' : ℕ) :
    capOf (updCap adj u i f) u' i' =
      if u = u' ∧ i = i' ∧ u < adj.length ∧ i < (adj.getD u []).length then
        f (capOf adj u i)
      else capOf adj u' i' := by
  simp only [updCap, capOf]
  by_cases hu : u = u'
  · subst hu
    by_cases hul : u < adj.length
    · rw [getD_set_self' _ _ _ hul]
      by_cases hi : i = i'
      · subst hi
        by_cases hil : i < (adj.getD u []).length
        · rw [getD_set_self_g _ _ _ _ hil, if_pos ⟨rfl, rfl, hul, hil⟩]
        · rw [List.set_eq_of_length_le (le_of_not_lt hil),
            if_neg (fun h => hil h.2.2.2)]
      · rw [getD_set_ne_g _ _ _ _ _ hi, if_neg (fun h => hi h.2.1)]
    · rw [List.set_eq_of_length_le (le_of_not_lt hul),
        if_neg (fun h => hul h.2.2.1)]
  · rw [getD_set_ne' _ _ _ _ hu, if_neg (fun h => hu h.1)]

theorem capOf_updCap_sub (adj : List (List DinicEdge)) (u i : ℕ) (t : ℚ)
    (ht : 0 ≤ t) (u' i' : ℕ) :
    capOf adj u' i' - t ≤ capOf (updCap adj u i (fun c => c - t)) u' i' := by
  rw [capOf_updCap]
  split
  · rename_i h
    obtain ⟨rfl, rfl, -, -⟩ := h
    exact le_refl _
  · exact sub_le_self _ ht

theorem capOf_updCap_add (adj : List (List DinicEdge)) (u i : ℕ) (t : ℚ)
    (ht : 0 ≤ t) (u' i' : ℕ) :
    capOf adj u' i' ≤ capOf (updCap adj u i (fun c => c + t)) u' i' := by
  rw [capOf_updCap]
  split
  · rename_i h
    obtain ⟨rfl, rfl, -, -⟩ := h
    exact le_add_of_nonneg_right ht
  · exact le_refl _

theorem updCap_getD_ne (adj : List (List DinicEdge)) (u i : ℕ) (f : ℚ → ℚ)
    (u' : ℕ) (h : u ≠ u') :
    (updCap adj u i f).getD u' [] = adj.getD u' [] := by
  simp only [updCap]
  exact getD_set_ne' _ _ _ _ h

theorem updCap_struct (adj : List (List DinicEdge)) (u i : ℕ) (f : ℚ → ℚ) :
    (∀ u', ((updCap adj u i f).getD u' []).length = (adj.getD u' []).length) ∧
      (∀ u' i', toOf (updCap adj u i f) u' i' = toOf adj u' i' ∧
        revOf (updCap adj u i f) u' i' = revOf adj u' i') ∧
      (updCap adj u i f).length = adj.length := by
  simp only [updCap, toOf, revOf]
  refine ⟨fun u' => ?_, fun u' i' => ?_, List.length_set _ _ _⟩
  · by_cases hu : u = u'
    · subst hu
      by_cases hul : u < adj.length
      · rw [getD_set_self' _ _ _ hul, List.length_set]
      · rw [List.set_eq_of_length_le (le_of_not_lt hul)]
    · rw [getD_set_ne' _ _ _ _ hu]
  · by_cases hu : u = u'
    · subst hu
      by_cases hul : u < adj.length
      · rw [getD_set_self' _ _ _ hul]
        by_cases hi : i = i'
        · subst hi
          by_cases hil : i < (adj.getD u []).length
          · rw [getD_set_self_g _ _ _ _ hil]
            exact ⟨rfl, rfl⟩
          · rw [List.set_eq_of_length_le (le_of_not_lt hil)]
            exact ⟨rfl, rfl⟩
        · rw [getD_set_ne_g _ _ _ _ _ hi]
          exact ⟨rfl, rfl⟩
      · rw [List.set_eq_of_length_le (le_of_not_lt hul)]
        exact ⟨rfl, rfl⟩
    · rw [getD_set_ne' _ _ _ _ hu]
      exact ⟨rfl, rfl⟩

theorem sum_set_rat (m : List ℚ) (i : ℕ) (a : ℚ) (h : i < m.length) :
    (m.set i a).sum = m.sum - m.getD i 0 + a := by
  rw [List.sum_set, if_pos h]
  have hdec : m.sum = (m.take i).sum + (m.getD i 0 + (m.drop (i + 1)).sum) := by
    conv_lhs => rw [← List.take_append_drop i m]
    rw [List.sum_append, List.drop_eq_getElem_cons h, List.sum_cons,
      List.getD_eq_getElem?_getD, List.getElem?_eq_getElem h]
    rfl
  rw [hdec]
  ring

theorem getD_map_cap (l : List DinicEdge) (i : ℕ) (hi : i < l.length) :
    (l.map DinicEdge.cap).getD i 0 = (l.getD i default).cap := by
  rw [List.getD_eq_getElem?_getD, List.getD_eq_getElem?_getD,
    List.getElem?_map, List.getElem?_eq_getElem hi]
  rfl

theorem srcSum_updCap_sub (adj : List (List DinicEdge)) (i : ℕ) (t : ℚ)
    (hu : 0 < adj.length) (hi : i < (adj.getD 0 []).length) :
    srcSum (updCap adj 0 i (fun c => c - t)) = srcSum adj - t := by
  simp only [updCap, srcSum]
  rw [getD_set_self' _ _ _ hu, List.map_set,
    sum_set_rat _ _ _ (by simpa using hi), getD_map_cap _ _ hi]
  ring

theorem srcSum_congr (adj adj' : List (List DinicEdge))
    (h : adj'.getD 0 [] = adj.getD 0 []) : srcSum adj' = srcSum adj := by
  rw [srcSum, srcSum, h]

theorem srcSum_nonneg (adj : List (List DinicEdge))
    (h : ∀ i, 0 ≤ capOf adj 0 i) : 0 ≤ srcSum adj := by
  apply List.sum_nonneg
  intro x hx
  rcases List.mem_map.1 hx with ⟨e, he, rfl⟩
  rcases List.mem_iff_getElem.1 he with ⟨i, hi, rfl⟩
  have hcap := h i
  rw [capOf, List.getD_eq_getElem?_getD, List.getElem?_eq_getElem hi] at hcap
  simpa using hcap

theorem toOf_congr (adj adj' : List (List DinicEdge)) (u j : ℕ)
    (h : (adj'.getD u []).getD j default = (adj.getD u []).getD j default) :
    toOf adj' u j = toOf adj u j := by
  simp only [toOf, h]

theorem capOf_congr (adj adj' : List (List DinicEdge)) (u j : ℕ)
    (h : (adj'.getD u []).getD j default = (adj.getD u []).getD j default) :
    capOf adj' u j = capOf adj u j := by
  simp only [capOf, h]

theorem capOf_row_congr (adj adj' : List (List DinicEdge)) (u : ℕ)
    (h : adj'.getD u [] = adj.getD u []) (j : ℕ) :
    capOf adj' u j = capOf adj u j := by
  simp only [capOf, h]

/-! ### What `addEdge` does to rows, membership-wise and position-wise -/

theorem getD_snoc_last {α : Type} (l : List α) (x : α) (d : α) :
    (l ++ [x]).getD l.length d = x := by
  rw [List.getD_append_right _ _ _ _ (le_refl _), Nat.sub_self]
  rfl

theorem setSnoc_getD (adj : List (List DinicEdge)) (w : ℕ) (x : DinicEdge)
    (u j : ℕ) (hj : j < (adj.getD u []).length) :
    j < ((adj.set w ((adj.getD w []) ++ [x])).getD u []).length ∧
      ((adj.set w ((adj.getD w []) ++ [x])).getD u []).getD j default =
        (adj.getD u []).getD j default := by
  by_cases hw : u = w
  · subst hw
    by_cases hl : u < adj.length
    · rw [getD_set_self' _ _ _ hl]
      refine ⟨?_, List.getD_append _ _ _ _ hj⟩
      rw [List.length_append]
      omega
    · rw [List.set_eq_of_length_le (le_of_not_lt hl)]
      exact ⟨hj, rfl⟩
  · rw [getD_set_ne' _ _ _ _ (fun h => hw h.symm)]
    exact ⟨hj, rfl⟩

theorem setSnoc_mem (adj : List (List DinicEdge)) (w : ℕ) (x : DinicEdge)
    (u : ℕ) (y : DinicEdge)
    (hy : y ∈ (adj.set w ((adj.getD w []) ++ [x])).getD u []) :
    y ∈ adj.getD u [] ∨ y = x := by
  by_cases hw : u = w
  · subst hw
    by_cases hl : u < adj.length
    · rw [getD_set_self' _ _ _ hl] at hy
      rcases List.mem_append.1 hy with h | h
      · exact Or.inl h
      · exact Or.inr (List.mem_singleton.1 h)
    · rw [List.set_eq_of_length_le (le_of_not_lt hl)] at hy
      exact Or.inl hy
  · rw [getD_set_ne' _ _ _ _ (fun h => hw h.symm)] at hy
    exact Or.inl hy

theorem addEdge_getD_stable (d : Dinic) (u' v' : ℕ) (c : ℚ) (u j : ℕ)
    (hj : j < (d.adj.getD u []).length) :
    j < ((addEdge d u' v' c).adj.getD u []).length ∧
      ((addEdge d u' v' c).adj.getD u []).getD j default =
        (d.adj.getD u []).getD j default := by
  simp only [addEdge]
  obtain ⟨h1, h2⟩ := setSnoc_getD d.adj u' _ u j hj
  obtain ⟨h3, h4⟩ := setSnoc_getD _ v' _ u j h1
  exact ⟨h3, h4.trans h2⟩

theorem addEdge_mem (d : Dinic) (u' v' : ℕ) (c : ℚ) (u : ℕ) (y : DinicEdge)
    (hy : y ∈ (addEdge d u' v' c).adj.getD u []) :
    y ∈ d.adj.getD u [] ∨ (y.«to» = v' ∧ y.cap = c) ∨
      (y.«to» = u' ∧ y.cap = 0) := by
  simp only [addEdge] at hy
  rcases setSnoc_mem _ v' _ u y hy with h | rfl
  · rcases setSnoc_mem _ u' _ u y h with h' | rfl
    · exact Or.inl h'
    · exact Or.inr (Or.inl ⟨rfl, rfl⟩)
  · exact Or.inr (Or.inr ⟨rfl, rfl⟩)

theorem addEdge_fwd_at (d : Dinic) (u v : ℕ) (c : ℚ) (hu : u < d.adj.length) :
    (d.adj.getD u []).length < ((addEdge d u v c).adj.getD u []).length ∧
      ((addEdge d u v c).adj.getD u []).getD (d.adj.getD u []).length default =
        ⟨v, (d.adj.getD v []).length, c⟩ := by
  simp only [addEdge]
  by_cases hv : v = u
  · subst hv
    rw [getD_set_self' _ _ _ (by simpa using hu), getD_set_self' _ _ _ hu]
    constructor
    · simp only [List.length_append, List.length_cons, List.length_nil]
      omega
    · rw [List.getD_append _ _ _ _ (by simp), getD_snoc_last]
  · rw [getD_set_ne' _ _ _ _ hv]
    rw [getD_set_self' _ _ _ hu]
    constructor
    · simp only [List.length_append, List.length_cons, List.length_nil]
      omega
    · exact getD_snoc_last _ _ _

theorem addEdge_size_len (d : Dinic) (u v : ℕ) (c : ℚ) :
    (addEdge d u v c).size = d.size ∧
      (addEdge d u v c).adj.length = d.adj.length := by
  simp [addEdge]

/-! ### Fold-invariance helper and facts about `buildNetwork` -/

theorem foldl_pres {β : Type} (P : Dinic → Prop) (f : Dinic → β → Dinic)
    (l : List β) :
    ∀ d : Dinic, P d → (∀ d' b, b ∈ l → P d' → P (f d' b)) → P (l.foldl f d) := by
  induction l with
  | nil => intro d hd _; exact hd
  | cons a t ih =>
    intro d hd hstep
    rw [List.foldl_cons]
    exact ih (f d a) (hstep d a (List.mem_cons_self a t) hd)
      (fun d' b hb => hstep d' b (List.mem_cons_of_mem a hb))

theorem chunkFold_state (g : Graph) (p : ℚ) :
    (g.chunks.enum.foldl
      (fun d q =>
        if 0 ≤ q.2.weight - p then addEdge d 0 (q.1 + 2) (q.2.weight - p)
        else addEdge d (q.1 + 2) 1 (-(q.2.weight - p)))
      (mkDinic (g.chunks.length + 2))).size = g.chunks.length + 2 ∧
    (g.chunks.enum.foldl
      (fun d q =>
        if 0 ≤ q.2.weight - p then addEdge d 0 (q.1 + 2) (q.2.weight - p)
        else addEdge d (q.1 + 2) 1 (-(q.2.weight - p)))
      (mkDinic (g.chunks.length + 2))).adj.length = g.chunks.length + 2 := by
  refine foldl_pres
    (fun d => d.size = g.chunks.length + 2 ∧ d.adj.length = g.chunks.length + 2)
    _ _ _ ⟨rfl, by simp [mkDinic]⟩ ?_
  intro d b _ hd
  by_cases hw : 0 ≤ b.2.weight - p
  · rw [if_pos hw]
    obtain ⟨h1, h2⟩ := addEdge_size_len d 0 (b.1 + 2) (b.2.weight - p)
    exact ⟨h1.trans hd.1, h2.trans hd.2⟩
  · rw [if_neg hw]
    obtain ⟨h1, h2⟩ := addEdge_size_len d (b.1 + 2) 1 (-(b.2.weight - p))
    exact ⟨h1.trans hd.1, h2.trans hd.2⟩

theorem buildNetwork_state (g : Graph) (p inf : ℚ) :
    (buildNetwork g p inf).size = g.chunks.length + 2 ∧
      (buildNetwork g p inf).adj.length = g.chunks.length + 2 := by
  simp only [buildNetwork]
  refine foldl_pres
    (fun d => d.size = g.chunks.length + 2 ∧ d.adj.length = g.chunks.length + 2)
    _ _ _ (chunkFold_state g p) ?_
  intro d b _ hd
  split
  · obtain ⟨h1, h2⟩ := addEdge_size_len d _ _ inf
    exact ⟨h1.trans hd.1, h2.trans hd.2⟩
  · exact hd

theorem buildNetwork_caps_nonneg (g : Graph) (p inf : ℚ) (hinf : 0 ≤ inf) :
    ∀ u, ∀ y ∈ (buildNetwork g p inf).adj.getD u [], 0 ≤ y.cap := by
  simp only [buildNetwork]
  refine foldl_pres (fun d => ∀ u, ∀ y ∈ d.adj.getD u [], 0 ≤ y.cap) _ _ _
    (foldl_pres (fun d => ∀ u, ∀ y ∈ d.adj.getD u [], 0 ≤ y.cap) _ _ _ ?_ ?_) ?_
  · intro u y hy
    rw [mkDinic] at hy
    rw [getD_replicate_g] at hy
    cases hy
  · intro d b _ hd u y hy
    by_cases hw : 0 ≤ b.2.weight - p
    · rw [if_pos hw] at hy
      rcases addEdge_mem _ _ _ _ _ _ hy with h | ⟨-, hc⟩ | ⟨-, hc⟩
      · exact hd u y h
      · rw [hc]; exact hw
      · rw [hc]
    · rw [if_neg hw] at hy
      rcases addEdge_mem _ _ _ _ _ _ hy with h | ⟨-, hc⟩ | ⟨-, hc⟩
      · exact hd u y h
      · rw [hc]; linarith [lt_of_not_le hw]
      · rw [hc]
  · intro d b _ hd u y hy
    by_cases hc : g.chunks.findIdx (fun c => c.id = b.fromId) < g.chunks.length ∧
        g.chunks.findIdx (fun c => c.id = b.toId) < g.chunks.length
    · rw [if_pos hc] at hy
      rcases addEdge_mem _ _ _ _ _ _ hy with h | ⟨-, hcap⟩ | ⟨-, hcap⟩
      · exact hd u y h
      · rw [hcap]; exact hinf
      · rw [hcap]
    · rw [if_neg hc] at hy
      exact hd u y hy

theorem buildNetwork_targets_lt (g : Graph) (p inf : ℚ) :
    ∀ u, ∀ y ∈ (buildNetwork g p inf).adj.getD u [],
      y.«to» < g.chunks.length + 2 := by
  simp only [buildNetwork]
  refine foldl_pres (fun d => ∀ u, ∀ y ∈ d.adj.getD u [], y.«to» < g.chunks.length + 2)
    _ _ _ (foldl_pres
      (fun d => ∀ u, ∀ y ∈ d.adj.getD u [], y.«to» < g.chunks.length + 2)
      _ _ _ ?_ ?_) ?_
  · intro u y hy
    rw [mkDinic] at hy
    rw [getD_replicate_g] at hy
    cases hy
  · intro d b hb hd u y hy
    have hblt : b.1 < g.chunks.length := by
      have hmem := (List.mem_enum_iff_getElem?).1 hb
      exact (List.getElem?_eq_some_iff.1 hmem).1
    by_cases hw : 0 ≤ b.2.weight - p
    · rw [if_pos hw] at hy
      rcases addEdge_mem _ _ _ _ _ _ hy with h | ⟨ht, -⟩ | ⟨ht, -⟩
      · exact hd u y h
      · rw [ht]; omega
      · rw [ht]; omega
    · rw [if_neg hw] at hy
      rcases addEdge_mem _ _ _ _ _ _ hy with h | ⟨ht, -⟩ | ⟨ht, -⟩
      · exact hd u y h
      · rw [ht]; omega
      · rw [ht]; omega
  · intro d b _ hd u y hy
    by_cases hc : g.chunks.findIdx (fun c => c.id = b.fromId) < g.chunks.length ∧
        g.chunks.findIdx (fun c => c.id = b.toId) < g.chunks.length
    · rw [if_pos hc] at hy
      rcases addEdge_mem _ _ _ _ _ _ hy with h | ⟨ht, -⟩ | ⟨ht, -⟩
      · exact hd u y h
      · rw [ht]; omega
      · rw [ht]; omega
    · rw [if_neg hc] at hy
      exact hd u y hy

/-! ### The total source capacity is below `INF − 1` -/

theorem srcSum_addEdge_src (d : Dinic) (v : ℕ) (c : ℚ) (hv : v ≠ 0)
    (hc : 0 ≤ c) : srcSum (addEdge d 0 v c).adj ≤ srcSum d.adj + c := by
  simp only [addEdge, srcSum]
  rw [getD_set_ne' _ _ _ _ hv]
  by_cases h0 : 0 < d.adj.length
  · rw [getD_set_self' _ _ _ h0, List.map_append, List.sum_append]
    simp
  · rw [List.set_eq_of_length_le (le_of_not_lt h0)]
    exact le_add_of_nonneg_right hc

theorem srcSum_addEdge_other (d : Dinic) (u v : ℕ) (c : ℚ) (hu : u ≠ 0)
    (hv : v ≠ 0) : srcSum (addEdge d u v c).adj = srcSum d.adj := by
  simp only [addEdge, srcSum]
  rw [getD_set_ne' _ _ _ _ hv, getD_set_ne' _ _ _ _ hu]

theorem chunkFold_srcSum (p : ℚ) :
    ∀ (l : List (ℕ × Chunk)) (d : Dinic),
      srcSum ((l.foldl
        (fun d q =>
          if 0 ≤ q.2.weight - p then addEdge d 0 (q.1 + 2) (q.2.weight - p)
          else addEdge d (q.1 + 2) 1 (-(q.2.weight - p))) d).adj) ≤
      srcSum d.adj + (l.map (fun q => |q.2.weight - p|)).sum := by
  intro l
  induction l with
  | nil => intro d; simp
  | cons q t ih =>
    intro d
    rw [List.foldl_cons, List.map_cons, List.sum_cons]
    by_cases hw : 0 ≤ q.2.weight - p
    · rw [if_pos hw]
      have h1 := srcSum_addEdge_src d (q.1 + 2) (q.2.weight - p) (by omega) hw
      have h2 := ih (addEdge d 0 (q.1 + 2) (q.2.weight - p))
      have habs : |q.2.weight - p| = q.2.weight - p := abs_of_nonneg hw
      rw [habs]
      linarith
    · rw [if_neg hw]
      have h1 := srcSum_addEdge_other d (q.1 + 2) 1 (-(q.2.weight - p))
        (by omega) (by omega)
      have h2 := ih (addEdge d (q.1 + 2) 1 (-(q.2.weight - p)))
      have habs : 0 ≤ |q.2.weight - p| := abs_nonneg _
      linarith

theorem buildNetwork_srcSum (g : Graph) (p inf : ℚ) :
    srcSum (buildNetwork g p inf).adj ≤
      (g.chunks.map (fun c => |c.weight - p|)).sum := by
  simp only [buildNetwork]
  refine foldl_pres
    (fun d => srcSum d.adj ≤ (g.chunks.map (fun c => |c.weight - p|)).sum)
    _ _ _ ?_ ?_
  · have h := chunkFold_srcSum p g.chunks.enum (mkDinic (g.chunks.length + 2))
    have hmk : srcSum (mkDinic (g.chunks.length + 2)).adj = 0 := by
      rw [mkDinic, srcSum]
      rw [getD_replicate_g]
      rfl
    have hmap : (g.chunks.enum.map (fun q => |q.2.weight - p|)).sum =
        (g.chunks.map (fun c => |c.weight - p|)).sum := by
      have hcomp : (fun q : ℕ × Chunk => |q.2.weight - p|) =
          (fun c : Chunk => |c.weight - p|) ∘ Prod.snd := rfl
      rw [hcomp, ← List.map_map, List.enum_map_snd]
    rw [hmk, hmap] at h
    linarith
  · intro d b _ hd
    by_cases hc : g.chunks.findIdx (fun c => c.id = b.fromId) < g.chunks.length ∧
        g.chunks.findIdx (fun c => c.id = b.toId) < g.chunks.length
    · rw [if_pos hc,
        srcSum_addEdge_other d _ _ inf (by omega) (by omega)]
      exact hd
    · rw [if_neg hc]
      exact hd

theorem infCap_eq (g : Graph) (p : ℚ) :
    infCap g p = (g.chunks.map (fun c => |c.weight - p|)).sum + 1 := by
  rw [infCap]
  have hfold : ∀ (l : List ℚ) (a : ℚ),
      l.foldl (fun acc w => acc + |w - p|) a =
        a + (l.map (fun w => |w - p|)).sum := by
    intro l
    induction l with
    | nil => intro a; simp
    | cons x t ih =>
      intro a
      rw [List.foldl_cons, List.map_cons, List.sum_cons, ih]
      ring
  rw [hfold]
  have hmap : (g.chunks.map Chunk.weight).map (fun w => |w - p|) =
      g.chunks.map (fun c => |c.weight - p|) := by
    rw [List.map_map]
    rfl
  rw [hmap]
  ring

theorem infCap_ge_one (g : Graph) (p : ℚ) : 1 ≤ infCap g p := by
  rw [infCap_eq]
  have h : 0 ≤ (g.chunks.map (fun c => |c.weight - p|)).sum := by
    apply List.sum_nonneg
    intro x hx
    rcases List.mem_map.1 hx with ⟨c, -, rfl⟩
    exact abs_nonneg _
  linarith

theorem buildNetwork_srcSum_infCap (g : Graph) (p : ℚ) :
    srcSum (buildNetwork g p (infCap g p)).adj ≤ infCap g p - 1 := by
  have h := buildNetwork_srcSum g p (infCap g p)
  conv_rhs => rw [infCap_eq]
  linarith

/-! ### The protected `INF` edge of an accepted dependency edge -/

theorem edgeFold_present (g : Graph) (inf : ℚ) (e : Edge)
    (hf : g.chunks.findIdx (fun c => c.id = e.fromId) < g.chunks.length)
    (ht : g.chunks.findIdx (fun c => c.id = e.toId) < g.chunks.length) :
    ∀ (l : List Edge) (d : Dinic), e ∈ l →
      d.adj.length = g.chunks.length + 2 →
      ∃ j, j < (((l.foldl
          (fun d e =>
            if g.chunks.findIdx (fun c => c.id = e.fromId) < g.chunks.length ∧
                g.chunks.findIdx (fun c => c.id = e.toId) < g.chunks.length then
              addEdge d (g.chunks.findIdx (fun c => c.id = e.fromId) + 2)
                (g.chunks.findIdx (fun c => c.id = e.toId) + 2) inf
            else d) d).adj.getD
          (g.chunks.findIdx (fun c => c.id = e.fromId) + 2) []).length) ∧
        toOf (l.foldl
          (fun d e =>
            if g.chunks.findIdx (fun c => c.id = e.fromId) < g.chunks.length ∧
                g.chunks.findIdx (fun c => c.id = e.toId) < g.chunks.length then
              addEdge d (g.chunks.findIdx (fun c => c.id = e.fromId) + 2)
                (g.chunks.findIdx (fun c => c.id = e.toId) + 2) inf
            else d) d).adj
          (g.chunks.findIdx (fun c => c.id = e.fromId) + 2) j =
          g.chunks.findIdx (fun c => c.id = e.toId) + 2 ∧
        capOf (l.foldl
          (fun d e =>
            if g.chunks.findIdx (fun c => c.id = e.fromId) < g.chunks.length ∧
                g.chunks.findIdx (fun c => c.id = e.toId) < g.chunks.length then
              addEdge d (g.chunks.findIdx (fun c => c.id = e.fromId) + 2)
                (g.chunks.findIdx (fun c => c.id = e.toId) + 2) inf
            else d) d).adj
          (g.chunks.findIdx (fun c => c.id = e.fromId) + 2) j = inf := by
  intro l
  induction l with
  | nil => intro d he; cases he
  | cons a t ih =>
    intro d he hlen
    rw [List.foldl_cons]
    rcases List.mem_cons.1 he with rfl | he'
    · rw [if_pos ⟨hf, ht⟩]
      obtain ⟨hj1, hj2⟩ := addEdge_fwd_at d
        (g.chunks.findIdx (fun c => c.id = e.fromId) + 2)
        (g.chunks.findIdx (fun c => c.id = e.toId) + 2) inf (by omega)
      refine foldl_pres
        (fun d' => ∃ j,
          j < ((d'.adj.getD (g.chunks.findIdx (fun c => c.id = e.fromId) + 2) []).length) ∧
          toOf d'.adj (g.chunks.findIdx (fun c => c.id = e.fromId) + 2) j =
            g.chunks.findIdx (fun c => c.id = e.toId) + 2 ∧
          capOf d'.adj (g.chunks.findIdx (fun c => c.id = e.fromId) + 2) j = inf)
        _ _ _ ?_ ?_
      · refine ⟨(d.adj.getD (g.chunks.findIdx (fun c => c.id = e.fromId) + 2) []).length,
          hj1, ?_, ?_⟩
        · simp only [toOf, hj2]
        · simp only [capOf, hj2]
      · intro d' b _ hnow
        obtain ⟨j, hjl, hjt, hjc⟩ := hnow
        by_cases hcond : g.chunks.findIdx (fun c => c.id = b.fromId) < g.chunks.length ∧
            g.chunks.findIdx (fun c => c.id = b.toId) < g.chunks.length
        · rw [if_pos hcond]
          obtain ⟨s1, s2⟩ := addEdge_getD_stable d'
            (g.chunks.findIdx (fun c => c.id = b.fromId) + 2)
            (g.chunks.findIdx (fun c => c.id = b.toId) + 2) inf
            (g.chunks.findIdx (fun c => c.id = e.fromId) + 2) j hjl
          exact ⟨j, s1, (toOf_congr _ _ _ _ s2).trans hjt,
            (capOf_congr _ _ _ _ s2).trans hjc⟩
        · rw [if_neg hcond]
          exact ⟨j, hjl, hjt, hjc⟩
    · have hlen' : (if g.chunks.findIdx (fun c => c.id = a.fromId) < g.chunks.length ∧
          g.chunks.findIdx (fun c => c.id = a.toId) < g.chunks.length then
            addEdge d (g.chunks.findIdx (fun c => c.id = a.fromId) + 2)
              (g.chunks.findIdx (fun c => c.id = a.toId) + 2) inf
          else d).adj.length = g.chunks.length + 2 := by
        split
        · rw [(addEdge_size_len d _ _ inf).2]
          exact hlen
        · exact hlen
      exact ih _ he' hlen'

theorem buildNetwork_edge_present (g : Graph) (p inf : ℚ) (e : Edge)
    (he : e ∈ g.edges)
    (hf : g.chunks.findIdx (fun c => c.id = e.fromId) < g.chunks.length)
    (ht : g.chunks.findIdx (fun c => c.id = e.toId) < g.chunks.length) :
    ∃ j, j < (((buildNetwork g p inf).adj.getD
        (g.chunks.findIdx (fun c => c.id = e.fromId) + 2) []).length) ∧
      toOf (buildNetwork g p inf).adj
        (g.chunks.findIdx (fun c => c.id = e.fromId) + 2) j =
        g.chunks.findIdx (fun c => c.id = e.toId) + 2 ∧
      capOf (buildNetwork g p inf).adj
        (g.chunks.findIdx (fun c => c.id = e.fromId) + 2) j = inf := by
  simp only [buildNetwork]
  exact edgeFold_present g inf e hf ht g.edges _ he (chunkFold_state g p).2

/-! ### The blocking-flow DFS: capacities drop by at most the pushed value,
stay nonnegative, and the source row loses at least the pushed value -/

theorem dfsPost_stay (level : List Int) (adj : List (List DinicEdge)) (v : ℕ)
    (pushed : Option ℚ) (hcap : ∀ u i, 0 ≤ capOf adj u i) (q0 : Option ℚ)
    (it' : List ℕ) (h0 : 0 ≤ q0.getD 0)
    (hle : ∀ q, pushed = some q → q0.getD 0 ≤ q)
    (h6 : v = 0 → q0.getD 0 = 0) :
    DfsPost level adj v pushed (q0, adj, it') := by
  refine ⟨h0, hle, fun u i => sub_le_self _ h0, hcap, fun u _ => rfl,
    fun hv0 => ?_, fun u => rfl, fun u i => ⟨rfl, rfl⟩, rfl⟩
  rw [h6 hv0]
  simp

theorem dfs_spec (sink : ℕ) (level : List Int) (hs : sink ≠ 0)
    (hl0 : level.getD 0 (-1) = 0) :
    ∀ (fuel : ℕ) (adj : List (List DinicEdge)) (it : List ℕ) (v : ℕ)
      (pushed : Option ℚ),
      (v = 0 ∨ 1 ≤ level.getD v (-1)) →
      (∀ u i, 0 ≤ capOf adj u i) →
      (∀ q, pushed = some q → 0 ≤ q) →
      DfsPost level adj v pushed (dfsRec sink level fuel adj it v pushed) := by
  intro fuel
  induction fuel with
  | zero =>
    intro adj it v pushed hv hcap hpush
    simp only [dfsRec]
    exact dfsPost_stay level adj v pushed hcap (some 0) it (by simp)
      (fun q hq => by rw [Option.getD_some]; exact hpush q hq) (fun _ => rfl)
  | succ fuel ih =>
    intro adj it v pushed hv hcap hpush
    simp only [dfsRec]
    by_cases hguard : v = sink ∨ pushed = some 0
    · rw [if_pos hguard]
      refine dfsPost_stay level adj v pushed hcap pushed it ?_ ?_ ?_
      · cases pushed with
        | none => simp
        | some q => rw [Option.getD_some]; exact hpush q rfl
      · intro q hq
        rw [hq, Option.getD_some]
      · intro hv0
        rcases hguard with hsink | hp0
        · rw [hv0] at hsink
          exact absurd hsink.symm hs
        · rw [hp0]
          rfl
    · rw [if_neg hguard]
      by_cases hiv : it.getD v 0 < (adj.getD v []).length
      · rw [if_pos hiv]
        by_cases hcond : eps < ((adj.getD v []).getD (it.getD v 0) default).cap ∧
            level.getD ((adj.getD v []).getD (it.getD v 0) default).«to» (-1) =
              level.getD v (-1) + 1
        · rw [if_pos hcond]
          have hlevv : 0 ≤ level.getD v (-1) := by
            rcases hv with rfl | h
            · rw [hl0]
            · omega
          have hlevto :
              1 ≤ level.getD ((adj.getD v []).getD (it.getD v 0) default).«to» (-1) := by
            rw [hcond.2]
            omega
          have hto_ne_v : ((adj.getD v []).getD (it.getD v 0) default).«to» ≠ v := by
            intro h
            have hx := hcond.2
            rw [h] at hx
            omega
          have hto_ne_0 : ((adj.getD v []).getD (it.getD v 0) default).«to» ≠ 0 := by
            intro h
            rw [h, hl0] at hlevto
            omega
          have heps_pos : (0 : ℚ) < eps := by rw [eps]; norm_num
          have hcap_e : 0 ≤ ((adj.getD v []).getD (it.getD v 0) default).cap :=
            le_of_lt (lt_trans heps_pos hcond.1)
          have hpush' : ∀ q,
              some (pushMin pushed ((adj.getD v []).getD (it.getD v 0) default).cap) =
                some q → 0 ≤ q := by
            intro q hq
            rw [← Option.some.inj hq]
            cases pushed with
            | none => exact hcap_e
            | some p => exact le_min (hpush p rfl) hcap_e
          obtain ⟨i1, i2, i3, i4, i5, i6, i7, i8, i9⟩ :=
            ih adj it ((adj.getD v []).getD (it.getD v 0) default).«to»
              (some (pushMin pushed ((adj.getD v []).getD (it.getD v 0) default).cap))
              (Or.inr hlevto) hcap hpush'
          set r := dfsRec sink level fuel adj it
            ((adj.getD v []).getD (it.getD v 0) default).«to»
            (some (pushMin pushed ((adj.getD v []).getD (it.getD v 0) default).cap))
            with hrdef
          have hrow_v : r.2.1.getD v [] = adj.getD v [] :=
            i5 v (by rw [hcond.2]; omega)
          have hv_lt : v < adj.length := by
            by_contra h
            have hrow : adj.getD v [] = [] := by
              rw [List.getD_eq_getElem?_getD,
                List.getElem?_eq_none (le_of_not_lt h)]
              rfl
            rw [hrow] at hiv
            simp at hiv
          have hv_lt' : v < r.2.1.length := by rw [i9]; exact hv_lt
          have hiv' : it.getD v 0 < (r.2.1.getD v []).length := by
            rw [hrow_v]
            exact hiv
          have htrq_le : r.1.getD 0 ≤
              ((adj.getD v []).getD (it.getD v 0) default).cap := by
            have h2 := i2
              (pushMin pushed ((adj.getD v []).getD (it.getD v 0) default).cap) rfl
            have h3 : pushMin pushed ((adj.getD v []).getD (it.getD v 0) default).cap ≤
                ((adj.getD v []).getD (it.getD v 0) default).cap := by
              cases pushed with
              | none => exact le_refl _
              | some p => exact min_le_right _ _
            linarith
          have hcap_v : capOf r.2.1 v (it.getD v 0) =
              ((adj.getD v []).getD (it.getD v 0) default).cap :=
            capOf_row_congr adj r.2.1 v hrow_v (it.getD v 0)
          by_cases htr : trPos r.1 = true
          · rw [if_pos htr]
            obtain ⟨s2len, s2tr, s2L⟩ :=
              updCap_struct r.2.1 v (it.getD v 0) (fun c => c - r.1.getD 0)
            obtain ⟨s3len, s3tr, s3L⟩ := updCap_struct
              (updCap r.2.1 v (it.getD v 0) (fun c => c - r.1.getD 0))
              ((adj.getD v []).getD (it.getD v 0) default).«to»
              ((adj.getD v []).getD (it.getD v 0) default).rev
              (fun c => c + r.1.getD 0)
            have hA2 : capOf (updCap r.2.1 v (it.getD v 0) (fun c => c - r.1.getD 0))
                v (it.getD v 0) =
                ((adj.getD v []).getD (it.getD v 0) default).cap - r.1.getD 0 := by
              rw [capOf_updCap, if_pos ⟨rfl, rfl, hv_lt', hiv'⟩, hcap_v]
            have hA3 : capOf
                (updCap (updCap r.2.1 v (it.getD v 0) (fun c => c - r.1.getD 0))
                  ((adj.getD v []).getD (it.getD v 0) default).«to»
                  ((adj.getD v []).getD (it.getD v 0) default).rev
                  (fun c => c + r.1.getD 0)) v (it.getD v 0) =
                capOf (updCap r.2.1 v (it.getD v 0) (fun c => c - r.1.getD 0))
                  v (it.getD v 0) := by
              rw [capOf_updCap, if_neg (fun h => hto_ne_v h.1)]
            refine ⟨i1, ?_, ?_, ?_, ?_, ?_, ?_, ?_, ?_⟩
            · intro q hq
              have h2 := i2
                (pushMin pushed ((adj.getD v []).getD (it.getD v 0) default).cap) rfl
              have h3 : pushMin pushed
                  ((adj.getD v []).getD (it.getD v 0) default).cap ≤ q := by
                rw [hq]
                exact min_le_left _ _
              linarith
            · intro u i
              by_cases huv : u = v ∧ i = it.getD v 0
              · obtain ⟨rfl, rfl⟩ := huv
                rw [hA3, hA2]
                exact le_refl _
              · have h2 : capOf
                    (updCap r.2.1 v (it.getD v 0) (fun c => c - r.1.getD 0)) u i =
                    capOf r.2.1 u i := by
                  rw [capOf_updCap, if_neg (fun h => huv ⟨h.1.symm, h.2.1.symm⟩)]
                have h3 := capOf_updCap_add
                  (updCap r.2.1 v (it.getD v 0) (fun c => c - r.1.getD 0))
                  ((adj.getD v []).getD (it.getD v 0) default).«to»
                  ((adj.getD v []).getD (it.getD v 0) default).rev
                  (r.1.getD 0) i1 u i
                have h4 := i3 u i
                linarith
            · intro u i
              by_cases huv : u = v ∧ i = it.getD v 0
              · obtain ⟨rfl, rfl⟩ := huv
                rw [hA3, hA2]
                linarith
              · have h2 : capOf
                    (updCap r.2.1 v (it.getD v 0) (fun c => c - r.1.getD 0)) u i =
                    capOf r.2.1 u i := by
                  rw [capOf_updCap, if_neg (fun h => huv ⟨h.1.symm, h.2.1.symm⟩)]
                have h3 := capOf_updCap_add
                  (updCap r.2.1 v (it.getD v 0) (fun c => c - r.1.getD 0))
                  ((adj.getD v []).getD (it.getD v 0) default).«to»
                  ((adj.getD v []).getD (it.getD v 0) default).rev
                  (r.1.getD 0) i1 u i
                have h4 := i4 u i
                linarith
            · intro u hu
              have hune_v : u ≠ v := by
                intro h
                rw [h] at hu
                exact absurd hu (lt_irrefl _)
              have hune_to :
                  u ≠ ((adj.getD v []).getD (it.getD v 0) default).«to» := by
                intro h
                rw [h, hcond.2] at hu
                omega
              rw [updCap_getD_ne _ _ _ _ u (fun h => hune_to h.symm),
                updCap_getD_ne _ _ _ _ u (fun h => hune_v h.symm)]
              exact i5 u (by rw [hcond.2]; omega)
            · intro hv0
              subst hv0
              have hrow0 :
                  (updCap (updCap r.2.1 0 (it.getD 0 0) (fun c => c - r.1.getD 0))
                    ((adj.getD 0 []).getD (it.getD 0 0) default).«to»
                    ((adj.getD 0 []).getD (it.getD 0 0) default).rev
                    (fun c => c + r.1.getD 0)).getD 0 [] =
                  (updCap r.2.1 0 (it.getD 0 0)
                    (fun c => c - r.1.getD 0)).getD 0 [] :=
                updCap_getD_ne _ _ _ _ 0 hto_ne_0
              have hsrc3 := srcSum_congr _ _ hrow0
              have hsrc2 := srcSum_updCap_sub r.2.1 (it.getD 0 0) (r.1.getD 0)
                hv_lt' hiv'
              have hsrc1 := srcSum_congr adj r.2.1 hrow_v
              rw [hsrc3, hsrc2, hsrc1]
              simp
            · intro u
              rw [s3len u, s2len u]
              exact i7 u
            · intro u i
              exact ⟨(s3tr u i).1.trans ((s2tr u i).1.trans (i8 u i).1),
                (s3tr u i).2.trans ((s2tr u i).2.trans (i8 u i).2)⟩
            · exact s3L.trans (s2L.trans i9)
          · rw [if_neg htr]
            have htrq0 : r.1.getD 0 = 0 := by
              cases hr1 : r.1 with
              | none =>
                rw [hr1] at htr
                simp [trPos] at htr
              | some q =>
                have h0 : 0 ≤ q := by
                  have hx := i1
                  rw [hr1] at hx
                  simpa using hx
                have hq0 : ¬ 0 < q := by
                  intro h
                  rw [hr1] at htr
                  exact htr (by simp [trPos, h])
                have hq : q = 0 := le_antisymm (not_lt.1 hq0) h0
                rw [hq]
                rfl
            obtain ⟨j1, j2, j3, j4, j5, j6, j7, j8, j9⟩ :=
              ih r.2.1 (r.2.2.set v (it.getD v 0 + 1)) v pushed hv i4 hpush
            refine ⟨j1, j2, ?_, j4, ?_, ?_, ?_, ?_, ?_⟩
            · intro u i
              have h1 := i3 u i
              have h2 := j3 u i
              rw [htrq0] at h1
              linarith
            · intro u hu
              rw [j5 u hu]
              exact i5 u (by rw [hcond.2]; omega)
            · intro hv0
              subst hv0
              have h6 := j6 rfl
              have h1 : srcSum r.2.1 = srcSum adj :=
                srcSum_congr adj r.2.1 hrow_v
              linarith
            · intro u
              rw [j7 u]
              exact i7 u
            · intro u i
              exact ⟨(j8 u i).1.trans (i8 u i).1, (j8 u i).2.trans (i8 u i).2⟩
            · exact j9.trans i9
        · rw [if_neg hcond]
          exact ih adj _ v pushed hv hcap hpush
      · rw [if_neg hiv]
        exact dfsPost_stay level adj v pushed hcap (some 0) it (by simp)
          (fun q hq => by rw [Option.getD_some]; exact hpush q hq) (fun _ => rfl)

/-! ### Through `maxFlow`: the flow is bounded by the source capacity and no
capacity drops by more than the flow -/

theorem trPos_false_getD (o : Option ℚ) (h0 : 0 ≤ o.getD 0)
    (h : ¬ trPos o = true) : o.getD 0 = 0 := by
  cases o with
  | none => simp [trPos] at h
  | some q =>
    have hq0 : ¬ 0 < q := fun hlt => h (by simp [trPos, hlt])
    have hq : q = 0 := le_antisymm (not_lt.1 hq0) (by simpa using h0)
    rw [Option.getD_some, hq]

theorem getD_mem_g {α : Type} (l : List α) (i : ℕ) (d : α) (h : i < l.length) :
    l.getD i d ∈ l := by
  rw [List.getD_eq_getElem?_getD, List.getElem?_eq_getElem h]
  exact List.getElem_mem h

theorem getD_oob_g {α : Type} (l : List α) (i : ℕ) (d : α) (h : ¬ i < l.length) :
    l.getD i d = d := by
  rw [List.getD_eq_getElem?_getD, List.getElem?_eq_none (le_of_not_lt h)]
  rfl

theorem capOf_nonneg_of_mem (adj : List (List DinicEdge))
    (h : ∀ u, ∀ y ∈ adj.getD u [], 0 ≤ y.cap) : ∀ u i, 0 ≤ capOf adj u i := by
  intro u i
  by_cases hi : i < (adj.getD u []).length
  · exact h u _ (getD_mem_g _ _ _ hi)
  · rw [capOf, getD_oob_g (adj.getD u []) i default hi]
    exact le_refl 0

theorem bfsStep_keep (adj : List (List DinicEdge)) (lv : List Int) (v t : ℕ)
    (h : 0 ≤ lv.getD t (-1)) :
    (bfsStep adj lv v).1.getD t (-1) = lv.getD t (-1) := by
  rw [bfsStep]
  have hgen : ∀ (l : List DinicEdge) (st : List Int × List ℕ),
      st.1.getD t (-1) = lv.getD t (-1) →
      (l.foldl (fun st e =>
        if eps < e.cap ∧ st.1.getD e.«to» (-1) < 0 then
          (st.1.set e.«to» (st.1.getD v (-1) + 1), st.2 ++ [e.«to»])
        else st) st).1.getD t (-1) = lv.getD t (-1) := by
    intro l
    induction l with
    | nil => intro st hst; exact hst
    | cons a tl ih =>
      intro st hst
      rw [List.foldl_cons]
      by_cases hcond : eps < a.cap ∧ st.1.getD a.«to» (-1) < 0
      · rw [if_pos hcond]
        apply ih
        have hne : a.«to» ≠ t := by
          intro hx
          rw [hx, hst] at hcond
          exact absurd hcond.2 (not_lt.2 h)
        rw [getD_set_ne_g _ _ _ _ _ hne]
        exact hst
      · rw [if_neg hcond]
        exact ih st hst
  exact hgen _ (lv, []) rfl

theorem bfsGo_keep (adj : List (List DinicEdge)) (t : ℕ) :
    ∀ (fuel : ℕ) (lv : List Int) (queue : List ℕ), 0 ≤ lv.getD t (-1) →
      (bfsGo adj fuel lv queue).getD t (-1) = lv.getD t (-1) := by
  intro fuel
  induction fuel with
  | zero => intro lv q h; rfl
  | succ f ih =>
    intro lv q h
    match q with
    | [] => rfl
    | v :: q' =>
      rw [bfsGo]
      have h1 := bfsStep_keep adj lv v t h
      rw [ih _ _ (by rw [h1]; exact h), h1]

theorem bfsRun_zero (d : Dinic) (h : 0 < d.size) :
    (bfsRun d 0).getD 0 (-1) = 0 := by
  rw [bfsRun]
  have hinit : ((List.replicate d.size (-1 : Int)).set 0 0).getD 0 (-1) = 0 :=
    getD_set_self_g _ _ _ _ (by simpa using h)
  rw [bfsGo_keep d.adj 0 d.size _ _ (by rw [hinit])]
  exact hinit

theorem augLoop_spec (sink : ℕ) (level : List Int) (hs : sink ≠ 0)
    (hl0 : level.getD 0 (-1) = 0) (dfuel : ℕ) :
    ∀ (fuel : ℕ) (adj : List (List DinicEdge)) (it : List ℕ) (flow : ℚ),
      (∀ u i, 0 ≤ capOf adj u i) →
      (flow ≤ (augLoop sink level dfuel fuel adj it flow).1 ∧
       (∀ u i, capOf adj u i -
           ((augLoop sink level dfuel fuel adj it flow).1 - flow) ≤
         capOf (augLoop sink level dfuel fuel adj it flow).2 u i) ∧
       (∀ u i, 0 ≤ capOf (augLoop sink level dfuel fuel adj it flow).2 u i) ∧
       (srcSum (augLoop sink level dfuel fuel adj it flow).2 +
         ((augLoop sink level dfuel fuel adj it flow).1 - flow) ≤ srcSum adj) ∧
       (∀ u, ((augLoop sink level dfuel fuel adj it flow).2.getD u []).length =
         (adj.getD u []).length) ∧
       (∀ u i,
         toOf (augLoop sink level dfuel fuel adj it flow).2 u i = toOf adj u i ∧
         revOf (augLoop sink level dfuel fuel adj it flow).2 u i = revOf adj u i) ∧
       (augLoop sink level dfuel fuel adj it flow).2.length = adj.length) := by
  intro fuel
  induction fuel with
  | zero =>
    intro adj it flow hcap
    have hres : augLoop sink level dfuel 0 adj it flow = (flow, adj) := rfl
    rw [hres]
    exact ⟨le_refl _, fun u i => by simp, hcap, by simp, fun u => rfl,
      fun u i => ⟨rfl, rfl⟩, rfl⟩
  | succ fuel ih =>
    intro adj it flow hcap
    simp only [augLoop]
    obtain ⟨i1, i2, i3, i4, i5, i6, i7, i8, i9⟩ :=
      dfs_spec sink level hs hl0 dfuel adj it 0 none (Or.inl rfl) hcap
        (fun q hq => by cases hq)
    set r0 := dfsRec sink level dfuel adj it 0 none with hr0
    by_cases htr : trPos r0.1 = true
    · rw [if_pos htr]
      obtain ⟨a1, a2, a3, a4, a5, a6, a7⟩ := ih r0.2.1 r0.2.2 (flow + r0.1.getD 0) i4
      refine ⟨?_, ?_, a3, ?_, ?_, ?_, a7.trans i9⟩
      · linarith
      · intro u i
        have h1 := i3 u i
        have h2 := a2 u i
        linarith
      · have h6 := i6 rfl
        linarith
      · intro u
        rw [a5 u]
        exact i7 u
      · intro u i
        exact ⟨(a6 u i).1.trans (i8 u i).1, (a6 u i).2.trans (i8 u i).2⟩
    · rw [if_neg htr]
      have htrq0 := trPos_false_getD r0.1 i1 htr
      refine ⟨le_refl _, ?_, i4, ?_, i7, i8, i9⟩
      · intro u i
        have h1 := i3 u i
        rw [htrq0] at h1
        linarith
      · have h6 := i6 rfl
        rw [htrq0] at h6
        linarith

theorem phaseLoop_spec (sink : ℕ) (hs : sink ≠ 0) :
    ∀ (pfuel : ℕ) (d : Dinic) (flow : ℚ),
      0 < d.size →
      (∀ u i, 0 ≤ capOf d.adj u i) →
      (flow ≤ (phaseLoop 0 sink pfuel d flow).1 ∧
       (∀ u i, capOf d.adj u i - ((phaseLoop 0 sink pfuel d flow).1 - flow) ≤
         capOf (phaseLoop 0 sink pfuel d flow).2.1.adj u i) ∧
       (∀ u i, 0 ≤ capOf (phaseLoop 0 sink pfuel d flow).2.1.adj u i) ∧
       (srcSum (phaseLoop 0 sink pfuel d flow).2.1.adj +
         ((phaseLoop 0 sink pfuel d flow).1 - flow) ≤ srcSum d.adj) ∧
       (∀ u, ((phaseLoop 0 sink pfuel d flow).2.1.adj.getD u []).length =
         (d.adj.getD u []).length) ∧
       (∀ u i,
         toOf (phaseLoop 0 sink pfuel d flow).2.1.adj u i = toOf d.adj u i ∧
         revOf (phaseLoop 0 sink pfuel d flow).2.1.adj u i = revOf d.adj u i) ∧
       (phaseLoop 0 sink pfuel d flow).2.1.adj.length = d.adj.length ∧
       (phaseLoop 0 sink pfuel d flow).2.1.size = d.size) := by
  intro pfuel
  induction pfuel with
  | zero =>
    intro d flow hsize hcap
    have hres : phaseLoop 0 sink 0 d flow = (flow, d, false) := rfl
    rw [hres]
    exact ⟨le_refl _, fun u i => by simp, hcap, by simp, fun u => rfl,
      fun u i => ⟨rfl, rfl⟩, rfl, rfl⟩
  | succ pfuel ih =>
    intro d flow hsize hcap
    simp only [phaseLoop]
    by_cases hb : 0 ≤ (bfsRun d 0).getD sink (-1)
    · rw [if_pos hb]
      have hl0 := bfsRun_zero d hsize
      obtain ⟨a1, a2, a3, a4, a5, a6, a7⟩ :=
        augLoop_spec sink (bfsRun d 0) hs hl0 (dfsFuel d)
          (totalAdjLen d.adj + 2) d.adj (List.replicate d.size 0) flow hcap
      set r := augLoop sink (bfsRun d 0) (dfsFuel d) (totalAdjLen d.adj + 2)
        d.adj (List.replicate d.size 0) flow with hr
      obtain ⟨p1, p2, p3, p4, p5, p6, p7, p8⟩ :=
        ih ⟨d.size, r.2⟩ r.1 hsize a3
      refine ⟨?_, ?_, p3, ?_, ?_, ?_, ?_, p8⟩
      · linarith
      · intro u i
        have h1 := a2 u i
        have h2 := p2 u i
        linarith
      · have h4 := p4
        linarith
      · intro u
        rw [p5 u]
        exact a5 u
      · intro u i
        exact ⟨(p6 u i).1.trans (a6 u i).1, (p6 u i).2.trans (a6 u i).2⟩
      · exact p7.trans a7
    · rw [if_neg hb]
      exact ⟨le_refl _, fun u i => by simp, hcap, by simp, fun u => rfl,
        fun u i => ⟨rfl, rfl⟩, rfl, rfl⟩

theorem maxFlow_spec (d : Dinic) (hsize : 0 < d.size)
    (hcap : ∀ u i, 0 ≤ capOf d.adj u i) :
    0 ≤ (maxFlow d 0 1).1 ∧
      (maxFlow d 0 1).1 ≤ srcSum d.adj ∧
      (∀ u i, capOf d.adj u i - (maxFlow d 0 1).1 ≤
        capOf (maxFlow d 0 1).2.1.adj u i) ∧
      (∀ u i, 0 ≤ capOf (maxFlow d 0 1).2.1.adj u i) ∧
      (∀ u, ((maxFlow d 0 1).2.1.adj.getD u []).length =
        (d.adj.getD u []).length) ∧
      (∀ u i, toOf (maxFlow d 0 1).2.1.adj u i = toOf d.adj u i) ∧
      (maxFlow d 0 1).2.1.adj.length = d.adj.length ∧
      (maxFlow d 0 1).2.1.size = d.size := by
  simp only [maxFlow]
  obtain ⟨p1, p2, p3, p4, p5, p6, p7, p8⟩ :=
    phaseLoop_spec 1 (by omega) (d.size + 1) d 0 hsize hcap
  have hnn : 0 ≤ srcSum (phaseLoop 0 1 (d.size + 1) d 0).2.1.adj :=
    srcSum_nonneg _ (fun i => p3 0 i)
  refine ⟨by linarith, by linarith, ?_, p3, p5, fun u i => (p6 u i).1, p7, p8⟩
  intro u i
  have h := p2 u i
  linarith

/-! ### Completeness of the residual-graph reachability scan: the final
visited set is closed under above-threshold residual edges -/

theorem mem_getD_of_mem (adj : List (List DinicEdge)) (u : ℕ) (y : DinicEdge)
    (hy : y ∈ adj.getD u []) :
    ∃ i, i < (adj.getD u []).length ∧ (adj.getD u []).getD i default = y := by
  rcases List.mem_iff_getElem.1 hy with ⟨i, hi, hyi⟩
  refine ⟨i, hi, ?_⟩
  rw [List.getD_eq_getElem?_getD, List.getElem?_eq_getElem hi]
  exact hyi

theorem count_false_set_true (l : List Bool) :
    ∀ t : ℕ, t < l.length → l.getD t false = false →
      (l.set t true).count false + 1 = l.count false := by
  induction l with
  | nil => intro t h; simp at h
  | cons b tl ih =>
    intro t ht hf
    cases t with
    | zero =>
      have hb : b = false := hf
      subst hb
      show (true :: tl).count false + 1 = (false :: tl).count false
      rw [List.count_cons, List.count_cons]
      simp
    | succ t' =>
      have ht' : t' < tl.length := by simpa using ht
      have hf' : tl.getD t' false = false := hf
      rw [List.set_cons_succ, List.count_cons, List.count_cons]
      have hstep := ih t' ht' hf'
      generalize (if (b == false) = true then 1 else 0) = z
      omega

theorem reachStep_mark_push (adj : List (List DinicEdge)) (seen : List Bool)
    (v : ℕ) :
    ∀ t, (reachStep adj seen v).1.getD t false = true →
      seen.getD t false = true ∨ t ∈ (reachStep adj seen v).2 := by
  rw [reachStep]
  have hgen : ∀ (l : List DinicEdge) (st : List Bool × List ℕ) (t : ℕ),
      ((l.foldl (fun st e =>
          if eps < e.cap ∧ st.1.getD e.«to» false = false then
            (st.1.set e.«to» true, e.«to» :: st.2)
          else st) st).1.getD t false = true →
        st.1.getD t false = true ∨
          t ∈ (l.foldl (fun st e =>
            if eps < e.cap ∧ st.1.getD e.«to» false = false then
              (st.1.set e.«to» true, e.«to» :: st.2)
            else st) st).2) ∧
      (t ∈ st.2 → t ∈ (l.foldl (fun st e =>
          if eps < e.cap ∧ st.1.getD e.«to» false = false then
            (st.1.set e.«to» true, e.«to» :: st.2)
          else st) st).2) := by
    intro l
    induction l with
    | nil => intro st t; exact ⟨fun h => Or.inl h, fun h => h⟩
    | cons a tl ih =>
      intro st t
      rw [List.foldl_cons]
      by_cases hcond : eps < a.cap ∧ st.1.getD a.«to» false = false
      · rw [if_pos hcond]
        constructor
        · intro h
          rcases (ih (st.1.set a.«to» true, a.«to» :: st.2) t).1 h with h1 | h1
          · by_cases hat : a.«to» = t
            · exact Or.inr ((ih (st.1.set a.«to» true, a.«to» :: st.2) t).2
                (List.mem_cons.2 (Or.inl hat.symm)))
            · rw [getD_set_ne_g _ _ _ _ _ hat] at h1
              exact Or.inl h1
          · exact Or.inr h1
        · intro h
          exact (ih (st.1.set a.«to» true, a.«to» :: st.2) t).2
            (List.mem_cons_of_mem _ h)
      · rw [if_neg hcond]
        exact ih st t
  intro t h
  exact (hgen _ (seen, []) t).1 h

theorem reachStep_measure (adj : List (List DinicEdge)) (seen : List Bool)
    (v : ℕ) (hrange : ∀ e ∈ adj.getD v [], e.«to» < seen.length) :
    (reachStep adj seen v).1.count false + (reachStep adj seen v).2.length ≤
        seen.count false ∧
      (reachStep adj seen v).1.length = seen.length := by
  rw [reachStep]
  have hgen : ∀ (l : List DinicEdge), (∀ e ∈ l, e.«to» < seen.length) →
      ∀ (st : List Bool × List ℕ),
      st.1.length = seen.length →
      st.1.count false + st.2.length ≤ seen.count false →
      ((l.foldl (fun st e =>
          if eps < e.cap ∧ st.1.getD e.«to» false = false then
            (st.1.set e.«to» true, e.«to» :: st.2)
          else st) st).1.count false +
        (l.foldl (fun st e =>
          if eps < e.cap ∧ st.1.getD e.«to» false = false then
            (st.1.set e.«to» true, e.«to» :: st.2)
          else st) st).2.length ≤ seen.count false ∧
       (l.foldl (fun st e =>
          if eps < e.cap ∧ st.1.getD e.«to» false = false then
            (st.1.set e.«to» true, e.«to» :: st.2)
          else st) st).1.length = seen.length) := by
    intro l
    induction l with
    | nil => intro _ st hlen hm; exact ⟨hm, hlen⟩
    | cons a tl ih =>
      intro hr st hlen hm
      rw [List.foldl_cons]
      by_cases hcond : eps < a.cap ∧ st.1.getD a.«to» false = false
      · rw [if_pos hcond]
        apply ih (fun e he => hr e (List.mem_cons_of_mem a he))
        · exact (List.length_set _ _ _).trans hlen
        · have hat : a.«to» < st.1.length := by
            rw [hlen]
            exact hr a (List.mem_cons_self a tl)
          have hflip := count_false_set_true st.1 a.«to» hat hcond.2
          simp only [List.length_cons]
          omega
      · rw [if_neg hcond]
        exact ih (fun e he => hr e (List.mem_cons_of_mem a he)) st hlen hm
  exact hgen _ hrange (seen, []) rfl (by simp)

theorem reachGo_complete (adj : List (List DinicEdge)) (N : ℕ)
    (hrange : ∀ u, ∀ e ∈ adj.getD u [], e.«to» < N) :
    ∀ (fuel : ℕ) (seen : List Bool) (stk : List ℕ),
      seen.length = N →
      seen.count false + stk.length < fuel →
      (∀ u, seen.getD u false = true → u ∈ stk ∨
        ∀ e ∈ adj.getD u [], eps < e.cap → seen.getD e.«to» false = true) →
      ∀ u, (reachGo adj fuel seen stk).getD u false = true →
        ∀ e ∈ adj.getD u [], eps < e.cap →
          (reachGo adj fuel seen stk).getD e.«to» false = true := by
  intro fuel
  induction fuel with
  | zero =>
    intro seen stk hlen hm hinv
    exact absurd hm (Nat.not_lt_zero _)
  | succ fuel ih =>
    intro seen stk hlen hm hinv
    match stk with
    | [] =>
      intro u hu e he hcap
      rcases hinv u hu with h | h
      · cases h
      · exact h e he hcap
    | v :: stk' =>
      simp only [reachGo]
      have hrangev : ∀ e ∈ adj.getD v [], e.«to» < seen.length := by
        intro e he
        rw [hlen]
        exact hrange v e he
      obtain ⟨hms, hlens⟩ := reachStep_measure adj seen v hrangev
      apply ih
      · rw [hlens]
        exact hlen
      · rw [List.length_append]
        have hm' := hm
        simp only [List.length_cons] at hm'
        omega
      · intro u hu
        by_cases huv : u = v
        · subst huv
          refine Or.inr (fun e he hcap => ?_)
          exact ((reachStep_spec adj seen u).1 e.«to»).2
            (Or.inr ⟨by rw [hlen]; exact hrange u e he, e, he, rfl, hcap⟩)
        · rcases reachStep_mark_push adj seen v u hu with hold | hpush
          · rcases hinv u hold with hstk | hclosed
            · rcases List.mem_cons.1 hstk with rfl | hmem
              · exact absurd rfl huv
              · exact Or.inl (List.mem_append.2 (Or.inr hmem))
            · refine Or.inr (fun e he hcap => ?_)
              exact ((reachStep_spec adj seen v).1 e.«to»).2
                (Or.inl (hclosed e he hcap))
          · exact Or.inl (List.mem_append.2 (Or.inl hpush))

theorem reachable_closed (d : Dinic) (hsz : 0 < d.size)
    (hrange : ∀ u, ∀ e ∈ d.adj.getD u [], e.«to» < d.size) :
    ∀ u, (reachable d 0).getD u false = true →
      ∀ e ∈ d.adj.getD u [], eps < e.cap →
        (reachable d 0).getD e.«to» false = true := by
  rw [reachable]
  refine reachGo_complete d.adj d.size hrange (d.size + 1)
    ((List.replicate d.size false).set 0 true) [0] ?_ ?_ ?_
  · rw [List.length_set, List.length_replicate]
  · have hc := count_false_set_true (List.replicate d.size false) 0
      (by rw [List.length_replicate]; exact hsz) (getD_replicate_g _ _ _)
    have hrep : (List.replicate d.size false).count false = d.size := by
      rw [List.count_replicate]
      simp
    simp only [List.length_cons, List.length_nil]
    omega
  · intro u hu
    by_cases hu0 : u = 0
    · subst hu0
      exact Or.inl (List.mem_singleton.2 rfl)
    · exfalso
      rw [getD_set_ne_g _ _ _ _ _ (fun h => hu0 h.symm), getD_replicate_g] at hu
      cases hu

/-- The accepted dependency edges survive `maxFlow` with residual capacity
`≥ INF − flow ≥ 1 > eps`, so the reachability scan of the final network can
always cross them: the reach set is closed along them. -/
theorem reachSet_protected (g : Graph) (p : ℚ) (e : Edge) (he : e ∈ g.edges)
    (hf : g.chunks.findIdx (fun c => c.id = e.fromId) < g.chunks.length)
    (ht : g.chunks.findIdx (fun c => c.id = e.toId) < g.chunks.length)
    (hreach : (reachSet g p).getD
      (g.chunks.findIdx (fun c => c.id = e.fromId) + 2) false = true) :
    (reachSet g p).getD
      (g.chunks.findIdx (fun c => c.id = e.toId) + 2) false = true := by
  obtain ⟨hsz, hlen⟩ := buildNetwork_state g p (infCap g p)
  have hinf0 : (0 : ℚ) ≤ infCap g p := le_trans zero_le_one (infCap_ge_one g p)
  have hcap := capOf_nonneg_of_mem _
    (buildNetwork_caps_nonneg g p (infCap g p) hinf0)
  obtain ⟨m1, m2, m3, m4, m5, m6, m7, m8⟩ :=
    maxFlow_spec (buildNetwork g p (infCap g p)) (by omega) hcap
  obtain ⟨j, hjl, hjt, hjc⟩ := buildNetwork_edge_present g p (infCap g p) e he hf ht
  set A := (maxFlow (buildNetwork g p (infCap g p)) 0 1).2.1 with hA
  have hflow : (maxFlow (buildNetwork g p (infCap g p)) 0 1).1 ≤ infCap g p - 1 :=
    le_trans m2 (buildNetwork_srcSum_infCap g p)
  have hcapj : eps < capOf A.adj
      (g.chunks.findIdx (fun c => c.id = e.fromId) + 2) j := by
    have h3 := m3 (g.chunks.findIdx (fun c => c.id = e.fromId) + 2) j
    rw [hjc] at h3
    have heps1 : eps < 1 := by rw [eps]; norm_num
    linarith
  have htoj : toOf A.adj (g.chunks.findIdx (fun c => c.id = e.fromId) + 2) j =
      g.chunks.findIdx (fun c => c.id = e.toId) + 2 := by
    rw [m6]
    exact hjt
  have hjl' : j < (A.adj.getD
      (g.chunks.findIdx (fun c => c.id = e.fromId) + 2) []).length := by
    rw [m5]
    exact hjl
  have hrangeA : ∀ u, ∀ y ∈ A.adj.getD u [], y.«to» < A.size := by
    intro u y hy
    obtain ⟨i, hi, hyi⟩ := mem_getD_of_mem A.adj u y hy
    have hid : i < ((buildNetwork g p (infCap g p)).adj.getD u []).length := by
      rw [← m5 u]
      exact hi
    have h5 := buildNetwork_targets_lt g p (infCap g p) u _
      (getD_mem_g ((buildNetwork g p (infCap g p)).adj.getD u []) i default hid)
    have h7 : y.«to» = toOf A.adj u i := by
      rw [← hyi]
      rfl
    rw [m8, hsz, h7, m6 u i]
    exact h5
  have hszA : 0 < A.size := by rw [m8, hsz]; omega
  have hclosed := reachable_closed A hszA hrangeA
  have hmem : (A.adj.getD
      (g.chunks.findIdx (fun c => c.id = e.fromId) + 2) []).getD j default ∈
      A.adj.getD (g.chunks.findIdx (fun c => c.id = e.fromId) + 2) [] :=
    getD_mem_g _ _ _ hjl'
  have hres := hclosed _ hreach _ hmem hcapj
  rw [show ((A.adj.getD (g.chunks.findIdx (fun c => c.id = e.fromId) + 2)
    []).getD j default).«to» =
    g.chunks.findIdx (fun c => c.id = e.toId) + 2 from htoj] at hres
  exact hres

/-! ### From the reach set to the returned closure list -/

theorem mem_closureIdsOf_reach (g : Graph) (hw : g.Wf) (p : ℚ) (x : ChunkId)
    (hx : x ∈ closureIdsOf g p) :
    g.chunks.findIdx (fun c => c.id = x) < g.chunks.length ∧
      (reachSet g p).getD
        (g.chunks.findIdx (fun c => c.id = x) + 2) false = true := by
  rw [closureIdsOf_eq_filter] at hx
  rcases List.mem_map.1 hx with ⟨q, hq, hid⟩
  rcases List.mem_filter.1 hq with ⟨henum, hreach⟩
  have hget : g.chunks[q.1]? = some q.2 := List.mem_enum_iff_getElem?.1 henum
  obtain ⟨hq1, hq2⟩ := List.getElem?_eq_some_iff.1 hget
  have hkey : isKey g x := ⟨q.2, by rw [← hq2]; exact List.getElem_mem hq1, hid⟩
  have hfi := (isKey_iff_findIdx g x).1 hkey
  have hfid : g.chunks[g.chunks.findIdx (fun c => c.id = x)].id = x := by
    have hp := @List.findIdx_getElem _ (fun c => decide (c.id = x)) g.chunks hfi
    simpa using hp
  have hqid : g.chunks[q.1].id = x := by rw [hq2]; exact hid
  have hq1m : q.1 < (g.chunks.map Chunk.id).length := by
    rw [List.length_map]
    exact hq1
  have hfim : g.chunks.findIdx (fun c => c.id = x) <
      (g.chunks.map Chunk.id).length := by
    rw [List.length_map]
    exact hfi
  have heq : q.1 = g.chunks.findIdx (fun c => c.id = x) := by
    have h1 : (g.chunks.map Chunk.id)[q.1] =
        (g.chunks.map Chunk.id)[g.chunks.findIdx (fun c => c.id = x)] := by
      rw [List.getElem_map Chunk.id, List.getElem_map Chunk.id, hqid, hfid]
    exact (List.Nodup.getElem_inj_iff hw).1 h1
  refine ⟨hfi, ?_⟩
  rw [← heq]
  exact of_decide_eq_true hreach

theorem reach_mem_closureIdsOf (g : Graph) (p : ℚ) (x : ChunkId)
    (hti : g.chunks.findIdx (fun c => c.id = x) < g.chunks.length)
    (hreach : (reachSet g p).getD
      (g.chunks.findIdx (fun c => c.id = x) + 2) false = true) :
    x ∈ closureIdsOf g p := by
  have hfid : g.chunks[g.chunks.findIdx (fun c => c.id = x)].id = x := by
    have hp := @List.findIdx_getElem _ (fun c => decide (c.id = x)) g.chunks hti
    simpa using hp
  rw [closureIdsOf_eq_filter]
  refine List.mem_map.2
    ⟨(g.chunks.findIdx (fun c => c.id = x),
      g.chunks[g.chunks.findIdx (fun c => c.id = x)]),
     List.mem_filter.2 ⟨?_, ?_⟩, hfid⟩
  · exact List.mem_enum_iff_getElem?.2 (List.getElem?_eq_getElem hti)
  · exact decide_eq_true hreach

/-- Closedness of the closure builder's output along dependency edges whose
two endpoints are keys of the chunk record. -/
theorem buildClosure_closed (g : Graph) (hw : g.Wf) (p : ℚ) (e : Edge)
    (he : e ∈ g.edges) (ht : isKey g e.toId)
    (hfrom : e.fromId ∈ (buildClosure g p).closure) :
    e.toId ∈ (buildClosure g p).closure := by
  rw [buildClosure_closure_eq] at hfrom ⊢
  obtain ⟨hf, hreach⟩ := mem_closureIdsOf_reach g hw p e.fromId hfrom
  have hti := (isKey_iff_findIdx g e.toId).1 ht
  exact reach_mem_closureIdsOf g p e.toId hti
    (reachSet_protected g p e he hf hti hreach)

/-- The removal walk of the size enforcer preserves closedness: it only drops
an id when no kept dependent points at it. -/
theorem removeLoop_closed (g : Graph) (k : ℤ) :
    ∀ (rem keep : List ChunkId),
      (∀ e ∈ g.edges, isKey g e.toId → e.fromId ∈ keep → e.toId ∈ keep) →
      ∀ e ∈ g.edges, isKey g e.toId →
        e.fromId ∈ removeLoop g k rem keep → e.toId ∈ removeLoop g k rem keep := by
  intro rem
  induction rem with
  | nil =>
    intro keep hc
    rw [removeLoop]
    exact hc
  | cons cid rest ih =>
    intro keep hc e he hk hmem
    rw [removeLoop] at hmem ⊢
    by_cases h1 : (keep.length : ℤ) ≤ k
    · rw [if_pos h1] at hmem ⊢
      exact hc e he hk hmem
    · rw [if_neg h1] at hmem ⊢
      by_cases h2 : isDependency g cid keep = true
      · rw [if_pos h2] at hmem ⊢
        exact ih keep hc e he hk hmem
      · rw [if_neg h2] at hmem ⊢
        refine ih (keep.erase cid) ?_ e he hk hmem
        intro e' he' hk' hmem'
        have hfe' : e'.fromId ∈ keep := List.erase_subset cid keep hmem'
        have hto : e'.toId ∈ keep := hc e' he' hk' hfe'
        have hne : e'.toId ≠ cid := by
          intro hx
          apply h2
          rw [isDependency_iff]
          exact ⟨e', he', hx, hfe'⟩
        exact (List.mem_erase_of_ne hne).2 hto

/-- When the last-resort fallback is not taken, the size enforcer's output is
still closed. -/
theorem enforceSizeLimit_closed (g : Graph) (ids : List ChunkId) (k : ℤ)
    (hc : ∀ e ∈ g.edges, isKey g e.toId → e.fromId ∈ ids → e.toId ∈ ids)
    (hnf : ¬ fallbackTaken g ids k) :
    ∀ e ∈ g.edges, isKey g e.toId → e.fromId ∈ enforceSizeLimit g ids k →
      e.toId ∈ enforceSizeLimit g ids k := by
  simp only [enforceSizeLimit]
  by_cases h1 : (ids.length : ℤ) ≤ k
  · rw [if_pos h1]
    exact hc
  · rw [if_neg h1]
    have h2 : ¬ k < ((enforceKeep g ids k).length : ℤ) := by
      intro hlt
      exact hnf ⟨h1, hlt⟩
    rw [if_neg h2]
    rw [enforceKeep]
    refine removeLoop_closed g k _ (jsDedup ids) ?_
    intro e' he' hk' hm'
    exact (jsDedup_mem ids _).2 (hc e' he' hk' ((jsDedup_mem ids _).1 hm'))

/-! ## Theorems for the concrete claims -/

/-- **C6**: on the two-chunk graph with weights A = 10, B = −3 and the single
edge A→B, `maximumWeightClosure` returns the closure `[A, B]` with
`totalWeight = 7` (and `size = 2`, `penalty = 0`). -/
theorem C6_exampleA :
    maximumWeightClosure exampleA = ⟨["A", "B"], 7, 2, some 0⟩ := by
  with_unfolding_all decide

/-- **C4** (evaluation of the code at the claimed input): on the chain
A→B→C with weights 10, 5, 1, `solveClosureBySize(graph, 1)` returns the
*empty* closure (total weight 0, size 0, penalty 10), not the closed subset
`{C}` of size 1 demanded by the claim.  Indeed `{C}` maximizes
`Σ (weight − p)` for no penalty `p` (it would need both `p < 1` and
`p ≥ 7.5`), so the penalty search only ever produces candidates of size 3 or
size 0, and the best tracked candidate is the empty one. -/
theorem C4_chain_returns_empty :
    solveClosureBySize chainGraph 1 = ⟨[], 0, 0, some 10⟩ ∧
      (solveClosureBySize chainGraph 1).closure ≠ ["C"] := by
  have h : solveClosureBySize chainGraph 1 = ⟨[], 0, 0, some 10⟩ := by
    with_unfolding_all decide
  exact ⟨h, by rw [h]; simp⟩

/-- **C9** (evaluation of the code at the failing input): on `epsGraph` the
solver returns the whole graph as closure with strictly negative total weight
−1/2000000000, although the empty closed subset has weight 0; this
contradicts the documented purpose of `maximumWeightClosure` (and the spec's
"globally weight-maximizing closed subset"). -/
theorem C9_negative_totalWeight :
    maximumWeightClosure epsGraph =
        ⟨["A", "B", "C"], -(1 / 2000000000), 3, some 0⟩ ∧
      (maximumWeightClosure epsGraph).totalWeight < 0 := by
  have h : maximumWeightClosure epsGraph =
      ⟨["A", "B", "C"], -(1 / 2000000000), 3, some 0⟩ := by decide!
  exact ⟨h, by rw [h]; norm_num⟩

/-- **C3, counterexample**: on a single chunk of weight 0 with no edges the
claimed identity `closure = {id : weight ≥ 0}` fails: the closure is empty
while the claimed set is `{A}` (the source only reaches nodes whose source
edge capacity exceeds `1e-9`). -/
theorem C3_weight_zero_excluded :
    (maximumWeightClosure zeroGraph).closure = [] ∧
      (zeroGraph.chunks.filter (fun c => 0 ≤ c.weight)).map Chunk.id = ["A"] := by
  constructor
  · with_unfolding_all decide
  · with_unfolding_all decide

/-- **C1, counterexample**: closedness as stated fails for an edge whose
target id is absent from the chunk mapping: in `danglingGraph` the edge
(A, ghost) is a dependency edge of the graph, A is in the closure returned by
`maximumWeightClosure`, but ghost is not. -/
theorem C1_dangling_edge_violation :
    (⟨"A", "ghost", none⟩ : Edge) ∈ danglingGraph.edges ∧
      "A" ∈ (maximumWeightClosure danglingGraph).closure ∧
      "ghost" ∉ (maximumWeightClosure danglingGraph).closure := by
  refine ⟨by with_unfolding_all decide, by with_unfolding_all decide,
    by with_unfolding_all decide⟩

/-- **C2, counterexample**: on the empty graph `solveClosureBySize(g, k)` is
*not* equal to `maximumWeightClosure(g)` although `k = 1 ≥ 0 = |chunks|`:
the former takes the `k ≤ 0 ∨ empty` branch, whose record carries no
`penalty` field, while the latter's record carries `penalty = 0`. -/
theorem C2_empty_graph_mismatch :
    (emptyGraph.chunks.length : ℤ) ≤ 1 ∧
      solveClosureBySize emptyGraph 1 ≠ maximumWeightClosure emptyGraph := by
  refine ⟨by with_unfolding_all decide, by with_unfolding_all decide⟩

/-- **C1 (amended)**: closedness along dependency edges whose target id is a
key of the chunk record.  For every well-formed graph (distinct record keys,
inherent to a JS `Record`) and every edge `(a, b)` of the graph with `b` a
key: if `a` is in the closure returned by `maximumWeightClosure`, then so is
`b`; and the same holds for `solveClosureBySize(graph, k)` whenever the size
enforcer's last-resort fallback is not taken.  (The restriction to edges
whose target is a key is the necessary amendment: an edge to an id absent
from the record violates the unrestricted statement, see the
counterexample.) -/
theorem C1_closedness (g : Graph) (hw : g.Wf) (e : Edge) (he : e ∈ g.edges)
    (ht : isKey g e.toId) :
    (e.fromId ∈ (maximumWeightClosure g).closure →
      e.toId ∈ (maximumWeightClosure g).closure) ∧
    ∀ k : ℤ, ¬ fallbackTaken g (searchBest g k).closure k →
      e.fromId ∈ (solveClosureBySize g k).closure →
      e.toId ∈ (solveClosureBySize g k).closure := by
  constructor
  · exact buildClosure_closed g hw 0 e he ht
  · intro k hnf hmem
    simp only [solveClosureBySize] at hmem ⊢
    by_cases h1 : k ≤ 0 ∨ g.chunks.length = 0
    · rw [if_pos h1] at hmem
      exact absurd hmem (List.not_mem_nil _)
    · rw [if_neg h1] at hmem ⊢
      by_cases h2 : (g.chunks.length : ℤ) ≤ k
      · rw [if_pos h2] at hmem ⊢
        exact buildClosure_closed g hw 0 e he ht hmem
      · rw [if_neg h2] at hmem ⊢
        obtain ⟨p, hp⟩ := searchBest_spec g k
        have hclosed : ∀ e' ∈ g.edges, isKey g e'.toId →
            e'.fromId ∈ (searchBest g k).closure →
            e'.toId ∈ (searchBest g k).closure := by
          intro e' he' hk' hm'
          rw [hp] at hm' ⊢
          exact buildClosure_closed g hw p e' he' hk' hm'
        exact enforceSizeLimit_closed g (searchBest g k).closure k hclosed hnf
          e he ht hmem

/-- **C1, witness instance**: the edge A→B of `exampleA`, whose target is a
key; both entry points at `k = 1`. -/
theorem C1_closedness_witness :
    exampleA.Wf ∧ (⟨"A", "B", none⟩ : Edge) ∈ exampleA.edges ∧
      isKey exampleA "B" ∧
      ("A" ∈ (maximumWeightClosure exampleA).closure →
        "B" ∈ (maximumWeightClosure exampleA).closure) ∧
      (¬ fallbackTaken exampleA (searchBest exampleA 1).closure 1 →
        "A" ∈ (solveClosureBySize exampleA 1).closure →
        "B" ∈ (solveClosureBySize exampleA 1).closure) := by
  refine ⟨by with_unfolding_all decide, by with_unfolding_all decide,
    by with_unfolding_all decide, ?_, ?_⟩
  · exact (C1_closedness exampleA (by with_unfolding_all decide)
      ⟨"A", "B", none⟩ (by with_unfolding_all decide)
      (by with_unfolding_all decide)).1
  · exact (C1_closedness exampleA (by with_unfolding_all decide)
      ⟨"A", "B", none⟩ (by with_unfolding_all decide)
      (by with_unfolding_all decide)).2 1

end Discorg
